import Mathlib

/-!
Shallow embedding of the ZX-diagram evolution engine from `sccmu_ui/`
(`zx_core.py`, `coherence.py`, `free_energy.py`, `annealing.py`,
`evolution_engine.py`).

Modelling conventions:
* Python ints are `ℤ` (counts are `ℕ`), floats are `ℝ` (exact arithmetic).
* Python dicts keyed by node id are association lists with first-match lookup.
* Functions that can fail an `assert` (or raise `KeyError`) return `Option`;
  a `none` models the call raising.
* `np.histogram(..., bins=16, range=(0, 2*pi), density=True)` is modelled by
  `binCount`/`histDensity`: bins `[j*w, (j+1)*w)` for `j < 15` and the closed
  last bin `[15*w, 2*pi]`, each count divided by `total * w`.  When no sample
  lies in range, numpy emits NaN entries and the following `norm > 0` test
  fails; the model's division by zero likewise yields `0`, so the branch taken
  (`phase_overlap = 0`) agrees with the code.
-/

namespace SCCMU

/-- Golden ratio constant `PHI = (1 + sqrt 5) / 2` from `zx_core.py`. -/
noncomputable def PHI : ℝ := (1 + Real.sqrt 5) / 2

/-- Spider kind: the `'Z'`/`'X'` tag of `NodeLabel.kind`. -/
inductive SpiderKind where
  | Z : SpiderKind
  | X : SpiderKind
deriving DecidableEq, Repr

/-- `NodeLabel` dataclass from `zx_core.py`. -/
structure NodeLabel where
  kind : SpiderKind
  phase_numer : ℤ
  phase_denom : ℤ
  node_id : ℤ
deriving DecidableEq, Repr

/-- `NodeLabel.is_power_of_2`: `n > 0 and (n & (n - 1)) == 0`. -/
def is_power_of_2 (n : ℤ) : Bool :=
  decide (0 < n) && decide (n.toNat &&& (n.toNat - 1) = 0)

/-- The checks of `NodeLabel.__post_init__` (`kind` is enforced by the type):
`phase_denom > 0` and `is_power_of_2 phase_denom`. -/
def label_post_init (l : NodeLabel) : Bool :=
  decide (0 < l.phase_denom) && is_power_of_2 l.phase_denom

/-- `ZXGraph` dataclass: node ids, undirected edges, labels dict. -/
structure ZXGraph where
  nodes : List ℤ
  edges : List (ℤ × ℤ)
  labels : List (ℤ × NodeLabel)
deriving DecidableEq, Repr

/-- Dict lookup `labels.get(k)` (first match, dicts have unique keys). -/
def dictGet : List (ℤ × NodeLabel) → ℤ → Option NodeLabel
  | [], _ => none
  | p :: rest, k => if p.1 = k then some p.2 else dictGet rest k

/-- Dict store `labels[k] = v` (replace in place, else append). -/
def dictInsert : List (ℤ × NodeLabel) → ℤ → NodeLabel → List (ℤ × NodeLabel)
  | [], k, v => [(k, v)]
  | p :: rest, k, v => if p.1 = k then (k, v) :: rest else p :: dictInsert rest k v

/-- `labels.values()` in insertion order. -/
def labelValues (d : ZXGraph) : List NodeLabel := d.labels.map (fun p => p.2)

/-- `ZXGraph.validate`: no self-loops, edges reference known nodes, every node
has a label.  (Phase-denominator validity is checked by `NodeLabel.__post_init__`
at construction; see `validateDiagram`.) -/
def validate (d : ZXGraph) : Bool :=
  d.edges.all (fun e => decide (e.1 ≠ e.2) && decide (e.1 ∈ d.nodes) && decide (e.2 ∈ d.nodes)) &&
  d.nodes.all (fun v => (dictGet d.labels v).isSome)

/-- All labels of the diagram pass `NodeLabel.__post_init__`. -/
def labels_valid (d : ZXGraph) : Bool :=
  d.labels.all (fun p => label_post_init p.2)

/-- Full validity of a diagram as constructible in Python: the structural
checks of `ZXGraph.validate` plus the constructor checks of every label. -/
def validateDiagram (d : ZXGraph) : Bool :=
  validate d && labels_valid d

/-- `create_seed_graph()`: one Z-spider, phase 0, no edges. -/
def create_seed_graph : ZXGraph :=
  { nodes := [0], edges := [], labels := [(0, ⟨SpiderKind.Z, 0, 1, 0⟩)] }

/-- `normalize_phase`: reduce to `[0, 2*denom)` then divide by the gcd. -/
def normalize_phase (phase_numer phase_denom : ℤ) : ℤ × ℤ :=
  let m := 2 * phase_denom
  let numer_mod := phase_numer % m
  let g : ℤ := Int.gcd numer_mod phase_denom
  if 0 < g then (numer_mod / g, phase_denom / g) else (numer_mod, phase_denom)

/-- `add_phases`: common denominator `max d1 d2`, add, normalize. -/
def add_phases (phase1_n phase1_d phase2_n phase2_d : ℤ) : ℤ × ℤ :=
  let common_denom := max phase1_d phase2_d
  let numer1 := phase1_n * (common_denom / phase1_d)
  let numer2 := phase2_n * (common_denom / phase2_d)
  normalize_phase (numer1 + numer2) common_denom

/-- `graphs_equal`: same node count, same edge count, per-node labels agree and
nodes of `G1` appear in `G2`, and edge lists are equal as sets. -/
def graphs_equal (G1 G2 : ZXGraph) : Bool :=
  decide (G1.nodes.length = G2.nodes.length) &&
  decide (G1.edges.length = G2.edges.length) &&
  G1.nodes.all (fun v => decide (v ∈ G2.nodes) &&
    decide (dictGet G1.labels v = dictGet G2.labels v)) &&
  (G1.edges.all (fun e => decide (e ∈ G2.edges)) &&
   G2.edges.all (fun e => decide (e ∈ G1.edges)))

/-! ### Coherence kernel (`coherence.py`) -/

/-- `NodeLabel.phase_radians = pi * phase_numer / phase_denom`. -/
noncomputable def phase_radians (l : NodeLabel) : ℝ :=
  Real.pi * (l.phase_numer : ℝ) / (l.phase_denom : ℝ)

/-- Phase list of a diagram: `[l.phase_radians for l in labels.values()]`. -/
noncomputable def phasesOf (d : ZXGraph) : List ℝ :=
  (labelValues d).map phase_radians

/-- Histogram bin width `2*pi / 16` for `np.histogram(..., bins=16, range=(0, 2*pi))`. -/
noncomputable def BINW : ℝ := 2 * Real.pi / 16

/-- Number of samples in bin `j` (half-open numpy bins, last bin closed). -/
noncomputable def binCount (phases : List ℝ) (j : ℕ) : ℕ :=
  phases.countP (fun p =>
    if (j : ℝ) * BINW ≤ p ∧ (if j = 15 then p ≤ 2 * Real.pi else p < ((j : ℝ) + 1) * BINW)
    then true else false)

/-- Total number of in-range samples. -/
noncomputable def totalInRange (phases : List ℝ) : ℕ :=
  ((List.range 16).map (binCount phases)).sum

/-- Density histogram value of bin `j`: `count / (total * binwidth)`. -/
noncomputable def histDensity (phases : List ℝ) (j : ℕ) : ℝ :=
  (binCount phases j : ℝ) / ((totalInRange phases : ℝ) * BINW)

/-- `np.dot(hist1, hist2)`. -/
noncomputable def dotH (p1 p2 : List ℝ) : ℝ :=
  ((List.range 16).map (fun j => histDensity p1 j * histDensity p2 j)).sum

/-- `np.linalg.norm(hist)`. -/
noncomputable def normH (p : List ℝ) : ℝ :=
  Real.sqrt (((List.range 16).map (fun j => histDensity p j ^ 2)).sum)

/-- Phase-histogram cosine similarity branch of `compute_structural_overlap`. -/
noncomputable def phase_overlap (D1 D2 : ZXGraph) : ℝ :=
  if D1.labels ≠ [] ∧ D2.labels ≠ [] then
    (if 0 < normH (phasesOf D1) ∧ 0 < normH (phasesOf D2) then
      dotH (phasesOf D1) (phasesOf D2) / (normH (phasesOf D1) * normH (phasesOf D2))
    else 0)
  else if D1.labels = [] ∧ D2.labels = [] then 1 else 0

/-- Node count similarity `min/max` (1 if both empty, 0 if exactly one empty). -/
noncomputable def node_sim (D1 D2 : ZXGraph) : ℝ :=
  if D1.nodes.length = 0 ∧ D2.nodes.length = 0 then 1
  else if D1.nodes.length = 0 ∨ D2.nodes.length = 0 then 0
  else (min D1.nodes.length D2.nodes.length : ℝ) / (max D1.nodes.length D2.nodes.length : ℝ)

/-- Edge count similarity `1 - |e1 - e2| / max(e1, e2, 1)`. -/
noncomputable def edge_sim (D1 D2 : ZXGraph) : ℝ :=
  1 - |(D1.edges.length : ℝ) - (D2.edges.length : ℝ)| /
      ((max D1.edges.length (max D2.edges.length 1) : ℕ) : ℝ)

/-- Number of Z-spiders among the label values. -/
def zCount (d : ZXGraph) : ℕ :=
  (labelValues d).countP (fun l => l.kind == SpiderKind.Z)

/-- Z/X-ratio similarity `1 - |z1/n1 - z2/n2|` (1 if a diagram has no nodes).
(The code also counts X-spiders but never uses those counts.) -/
noncomputable def type_sim (D1 D2 : ZXGraph) : ℝ :=
  if 0 < D1.nodes.length ∧ 0 < D2.nodes.length then
    1 - |(zCount D1 : ℝ) / (D1.nodes.length : ℝ) - (zCount D2 : ℝ) / (D2.nodes.length : ℝ)|
  else 1

/-- `compute_structural_overlap`: geometric mean of the four signals. -/
noncomputable def compute_structural_overlap (D1 D2 : ZXGraph) : ℝ :=
  (node_sim D1 D2 * edge_sim D1 D2 * type_sim D1 D2 * phase_overlap D1 D2) ^ (0.25 : ℝ)

/-- Label-difference term of `compute_edit_distance` (only when node counts match):
`+1` per differing kind, `+0.5` per phase difference above `0.1`. -/
noncomputable def label_diff (D1 D2 : ZXGraph) : ℝ :=
  if D1.nodes.length = D2.nodes.length then
    (D1.nodes.map (fun v =>
      if v ∈ D2.nodes then
        match dictGet D1.labels v, dictGet D2.labels v with
        | some l1, some l2 =>
            (if l1.kind ≠ l2.kind then (1 : ℝ) else 0) +
            (if 0.1 < |phase_radians l1 - phase_radians l2| then (0.5 : ℝ) else 0)
        | _, _ => 0
      else 0)).sum
  else 0

/-- `compute_edit_distance`: `|node diff| + |edge diff| + label_diff`. -/
noncomputable def compute_edit_distance (D1 D2 : ZXGraph) : ℝ :=
  |(D1.nodes.length : ℝ) - (D2.nodes.length : ℝ)| +
  |(D1.edges.length : ℝ) - (D2.edges.length : ℝ)| +
  label_diff D1 D2

/-- `coherence_between_diagrams` (pure value): `overlap * exp(-dist/PHI)`,
clipped to `[0, 1]`.  The `D1.validate(); D2.validate()` calls at the top of
the Python function are modelled by `coherence_checked`. -/
noncomputable def coherence_between_diagrams (D1 D2 : ZXGraph) : ℝ :=
  min (max (compute_structural_overlap D1 D2 *
            Real.exp (-(compute_edit_distance D1 D2) / PHI)) 0) 1

/-- `coherence_between_diagrams` including its input validation (an invalid
input makes the Python call raise). -/
noncomputable def coherence_checked (D1 D2 : ZXGraph) : Option ℝ :=
  if validate D1 = true ∧ validate D2 = true then some (coherence_between_diagrams D1 D2)
  else none

/-- Placeholder diagram for out-of-range matrix indices (never reached when
indices are below the list length). -/
def emptyGraph : ZXGraph := { nodes := [], edges := [], labels := [] }

/-- `compute_coherence_matrix` as an `n × n` entry function. -/
noncomputable def compute_coherence_matrix (diagrams : List ZXGraph) (i j : ℕ) : ℝ :=
  coherence_between_diagrams (diagrams.getD i emptyGraph) (diagrams.getD j emptyGraph)

/-! ### Free energy (`free_energy.py`) -/

/-- Inverse temperature `BETA = 2 * pi * PHI`. -/
noncomputable def BETA : ℝ := 2 * Real.pi * PHI

/-- Numerical floor `1e-10` used before logarithms. -/
noncomputable def EPS10 : ℝ := 1 / 10000000000

/-- `compute_coherence_functional`: asserts `len(diagrams) == len(rho)` and
`|sum rho - 1| < 1e-6`, then sums `C(i,j) * rho_i * rho_j`; each coherence call
validates both diagrams. -/
noncomputable def compute_coherence_functional (diagrams : List ZXGraph) (rho : List ℝ) :
    Option ℝ :=
  if diagrams.length = rho.length then
    if |rho.sum - 1| < 1 / 1000000 then
      if diagrams.all validate then
        some (((List.range diagrams.length).map (fun i =>
          ((List.range diagrams.length).map (fun j =>
            coherence_between_diagrams (diagrams.getD i emptyGraph) (diagrams.getD j emptyGraph) *
              rho.getD i 0 * rho.getD j 0)).sum)).sum)
      else none
    else none
  else none

/-- `compute_entropy`: asserts `|sum rho - 1| < 1e-6`, then returns
`-sum(rho * log(max(rho, 1e-10)))`. -/
noncomputable def compute_entropy (rho : List ℝ) : Option ℝ :=
  if |rho.sum - 1| < 1 / 1000000 then
    some (-(rho.map (fun x => x * Real.log (max x EPS10))).sum)
  else none

/-- `compute_free_energy`: `L - S / beta` (default `beta = BETA`). -/
noncomputable def compute_free_energy (diagrams : List ZXGraph) (rho : List ℝ) (beta : ℝ) :
    Option ℝ :=
  (compute_coherence_functional diagrams rho).bind (fun L =>
    (compute_entropy rho).map (fun S => L - S / beta))

/-- `compute_functional_derivative` with a precomputed coherence matrix:
`-2 * (C @ rho)[i] + (1/beta) * (log(max(rho_i, 1e-10)) + 1)`. -/
noncomputable def compute_functional_derivative (Cm : ℕ → ℕ → ℝ) (rho : List ℝ) (beta : ℝ) :
    List ℝ :=
  (List.range rho.length).map (fun i =>
    -2 * ((List.range rho.length).map (fun j => Cm i j * rho.getD j 0)).sum +
    (1 / beta) * (Real.log (max (rho.getD i 0) EPS10) + 1))

/-! ### Annealing schedule (`annealing.py`) -/

/-- Schedule kinds accepted by `AnnealingSchedule.get_beta`. -/
inductive ScheduleKind where
  | linear : ScheduleKind
  | exponential : ScheduleKind
  | sigmoid : ScheduleKind
  | power : ScheduleKind
deriving DecidableEq, Repr

/-- `AnnealingSchedule` configuration. -/
structure AnnealingSchedule where
  schedule_type : ScheduleKind
  total_steps : ℕ
  beta_initial : ℝ
  beta_final : ℝ

/-- `AnnealingSchedule.get_beta(step)`. -/
noncomputable def get_beta (s : AnnealingSchedule) (step : ℕ) : ℝ :=
  if s.total_steps ≤ step then s.beta_final
  else
    let progress : ℝ := (step : ℝ) / (s.total_steps : ℝ)
    match s.schedule_type with
    | ScheduleKind.linear => s.beta_initial + progress * (s.beta_final - s.beta_initial)
    | ScheduleKind.exponential =>
        s.beta_initial * Real.exp (Real.log (s.beta_final / s.beta_initial) * progress)
    | ScheduleKind.sigmoid =>
        s.beta_initial + (1 / (1 + Real.exp (-((progress - 0.5) * 10)))) *
          (s.beta_final - s.beta_initial)
    | ScheduleKind.power =>
        s.beta_initial + progress ^ (2 : ℝ) * (s.beta_final - s.beta_initial)

/-! ### Evolution engine (`evolution_engine.py`) -/

/-- `max(nodes)` of a nonempty node list. -/
def maxNode : List ℤ → ℤ
  | [] => 0
  | x :: xs => xs.foldl max x

/-- `max(var.nodes) + 1 if var.nodes else 0`. -/
def newNodeId (l : List ℤ) : ℤ :=
  if l = [] then 0 else maxNode l + 1

/-- `NodeLabel(...)` constructor: `none` models its asserts firing. -/
def mkNodeLabel (k : SpiderKind) (pn pd nid : ℤ) : Option NodeLabel :=
  if 0 < pd ∧ is_power_of_2 pd = true then some ⟨k, pn, pd, nid⟩ else none

/-- `'X' if kind == 'Z' else 'Z'`. -/
def flipKind : SpiderKind → SpiderKind
  | SpiderKind.Z => SpiderKind.X
  | SpiderKind.X => SpiderKind.Z

/-- Operation 1 of `generate_variations`: append a fresh leaf node attached to
`source`, with a (randomly chosen) kind and phase numerator over denominator 8. -/
def add_node_variation (g : ZXGraph) (source : ℤ) (k : SpiderKind) (pn : ℤ) :
    Option ZXGraph :=
  (mkNodeLabel k pn 8 (newNodeId g.nodes)).map (fun lbl =>
    { nodes := g.nodes ++ [newNodeId g.nodes],
      edges := g.edges ++ [(source, newNodeId g.nodes)],
      labels := dictInsert g.labels (newNodeId g.nodes) lbl })

/-- Operation 2: flip the kind of node `v` (raises `KeyError` when unlabeled). -/
def flip_variation (g : ZXGraph) (v : ℤ) : Option ZXGraph :=
  match dictGet g.labels v with
  | none => none
  | some old =>
      (mkNodeLabel (flipKind old.kind) old.phase_numer old.phase_denom old.node_id).map
        (fun lbl => { g with labels := dictInsert g.labels v lbl })

/-- Operation 3: add `pi/8` to the phase of node `v`. -/
def phase_variation (g : ZXGraph) (v : ℤ) : Option ZXGraph :=
  match dictGet g.labels v with
  | none => none
  | some old =>
      (mkNodeLabel old.kind (add_phases old.phase_numer old.phase_denom 1 8).1
          (add_phases old.phase_numer old.phase_denom 1 8).2 old.node_id).map
        (fun lbl => { g with labels := dictInsert g.labels v lbl })

/-- Section 1 of `generate_variations`: the entry guard is checked once, then
up to three node-addition variations are appended without re-checking the cap. -/
def add_node_section (g : ZXGraph) (maxVar : ℕ) (rnd : ℕ → SpiderKind × ℤ)
    (acc : List ZXGraph) : Option (List ZXGraph) :=
  if g.nodes.length < 15 ∧ acc.length < maxVar then
    (g.nodes.take 3).enum.foldlM (fun acc2 iv =>
      (add_node_variation g iv.2 (rnd iv.1).1 (rnd iv.1).2).map (fun w => acc2 ++ [w])) acc
  else some acc

/-- Sections 2 and 3 of `generate_variations`: append one variation per node,
breaking once the cap is reached. -/
def capped_append (maxVar : ℕ) (mk : ℤ → Option ZXGraph) (acc : List ZXGraph)
    (items : List ℤ) : Option (List ZXGraph) :=
  items.foldlM (fun acc2 v =>
    if maxVar ≤ acc2.length then some acc2
    else (mk v).map (fun w => acc2 ++ [w])) acc

/-- `ZXEvolutionEngine.generate_variations(graph, max_variations)`: the original
diagram, node additions (sources = first 3 nodes), kind flips (first 3 nodes),
phase increments (first 2 nodes), truncated to `max_variations`.  The random
draws of operation 1 are supplied by the oracle `rnd`. -/
def generate_variations (g : ZXGraph) (maxVar : ℕ) (rnd : ℕ → SpiderKind × ℤ) :
    Option (List ZXGraph) :=
  (add_node_section g maxVar rnd [g]).bind (fun v1 =>
    (capped_append maxVar (flip_variation g) v1 (g.nodes.take 3)).bind (fun v2 =>
      (capped_append maxVar (phase_variation g) v2 (g.nodes.take 2)).map
        (fun v3 => v3.take maxVar)))

/-- `np.mean` of a list. -/
noncomputable def listMean (l : List ℝ) : ℝ := l.sum / (l.length : ℝ)

/-- Step 5 update: `rho + dt * (-delta_F + mean(delta_F))`, elementwise. -/
noncomputable def rho_update (rho deltaF : List ℝ) (dt : ℝ) : List ℝ :=
  (rho.zip (deltaF.map (fun x => -x + listMean deltaF))).map (fun q => q.1 + q.2 * dt)

/-- `np.maximum(rho, 0)`. -/
noncomputable def clip_nonneg (l : List ℝ) : List ℝ := l.map (fun x => max x 0)

/-- `rho /= np.sum(rho)`. -/
noncomputable def renormalize (l : List ℝ) : List ℝ := l.map (fun x => x / l.sum)

/-- Steps 5 of `evolve_step`: update, clip to the simplex, renormalize. -/
noncomputable def step_rho (rho0 deltaF : List ℝ) (dt : ℝ) : List ℝ :=
  renormalize (clip_nonneg (rho_update rho0 deltaF dt))

/-- `np.argmax` helper: index of the first strictly greatest element. -/
noncomputable def argmaxAux : List ℝ → ℕ → ℕ → ℝ → ℕ
  | [], _, best, _ => best
  | x :: xs, i, best, bv => if bv < x then argmaxAux xs (i + 1) i x else argmaxAux xs (i + 1) best bv

/-- `np.argmax` (0 on the empty list, where numpy raises; the caller guards). -/
noncomputable def argmaxIdx : List ℝ → ℕ
  | [] => 0
  | x :: xs => argmaxAux xs 1 0 x

/-- Mutable state of `ZXEvolutionEngine` (histories are omitted; no claim
mentions them). -/
structure EngineState where
  modeGraph : ZXGraph
  ensemble : List ZXGraph
  rho : List ℝ
  ensembleSize : ℕ

/-- Fields of the dict returned by `evolve_step`. -/
structure StepResult where
  modeGraph : ZXGraph
  modeProbability : ℝ
  freeEnergy : ℝ
  modeCoherence : ℝ
  numDiagrams : ℕ

/-- Engine `__init__`: seed diagram, singleton ensemble, `rho = [1.0]`. -/
def engineInit (ensembleSize : ℕ) : EngineState :=
  { modeGraph := create_seed_graph, ensemble := [create_seed_graph],
    rho := [1], ensembleSize := ensembleSize }

/-- Step 2 of `evolve_step`: reinitialize `rho` to uniform when the ensemble
size changed, else keep the incoming distribution. -/
noncomputable def engineRho0 (st : EngineState) (ens : List ZXGraph) : List ℝ :=
  if st.rho.length ≠ ens.length then List.replicate ens.length (1 / (ens.length : ℝ))
  else st.rho

/-- Step 4 of `evolve_step`: the functional derivative at the (possibly
reinitialized) distribution, using the freshly computed coherence matrix. -/
noncomputable def engineDeltaF (st : EngineState) (ens : List ZXGraph) : List ℝ :=
  compute_functional_derivative (compute_coherence_matrix ens) (engineRho0 st ens) BETA

/-- Step 5 of `evolve_step`: gradient update on `rho`, clip, renormalize. -/
noncomputable def engineRho3 (st : EngineState) (ens : List ZXGraph) (dt : ℝ) : List ℝ :=
  step_rho (engineRho0 st ens) (engineDeltaF st ens) dt

/-- `ZXEvolutionEngine.evolve_step(dt)`: regenerate the ensemble around the
mode, reinitialize `rho` to uniform when the size changed, compute the
coherence matrix (validating every member), take a gradient step on `rho`,
clip and renormalize, extract the mode, and compute the observables.
`none` models the call raising (a failed assert, `KeyError`, or `np.argmax`
on an empty ensemble). -/
noncomputable def evolve_step (rnd : ℕ → SpiderKind × ℤ) (st : EngineState) (dt : ℝ) :
    Option (EngineState × StepResult) :=
  match generate_variations st.modeGraph st.ensembleSize rnd with
  | none => none
  | some ens =>
      if ens.all validate = true then
        match (engineRho3 st ens dt).get? (argmaxIdx (engineRho3 st ens dt)),
              ens.get? (argmaxIdx (engineRho3 st ens dt)) with
        | some modeProb, some modeG =>
            (match compute_free_energy ens (engineRho3 st ens dt) BETA,
                   coherence_checked modeG modeG with
             | some F, some mc =>
                 some ({ modeGraph := modeG, ensemble := ens, rho := engineRho3 st ens dt,
                         ensembleSize := st.ensembleSize },
                       { modeGraph := modeG, modeProbability := modeProb, freeEnergy := F,
                         modeCoherence := mc, numDiagrams := ens.length })
             | _, _ => none)
        | _, _ => none
      else none

/-- States reachable from `init` by finitely many successful `evolve_step`
calls with positive time steps. -/
inductive Reaches (init : EngineState) : EngineState → Prop
  | refl : Reaches init init
  | step (s1 s2 : EngineState) (res : StepResult) (rnd : ℕ → SpiderKind × ℤ) (dt : ℝ) :
      Reaches init s1 → 0 < dt → evolve_step rnd s1 dt = some (s2, res) → Reaches init s2

/-! ### Concrete diagrams used by counterexamples and witnesses -/

/-- Valid single-node diagram whose phase `-2*pi` lies outside `[0, 2*pi)`. -/
def badPhaseGraph : ZXGraph :=
  { nodes := [0], edges := [], labels := [(0, ⟨SpiderKind.Z, -2, 1, 0⟩)] }

/-- A 2-node extension of the seed: the seed plus one leaf joined by an edge. -/
def seed_extension (k : SpiderKind) (pn pd : ℤ) : ZXGraph :=
  { nodes := [0, 1], edges := [(0, 1)],
    labels := [(0, ⟨SpiderKind.Z, 0, 1, 0⟩), (1, ⟨k, pn, pd, 1⟩)] }

/-- Valid 10-node diagram with no edges (all Z-spiders at phase 0). -/
def tenIsolated : ZXGraph :=
  { nodes := (List.range 10).map Int.ofNat, edges := [],
    labels := (List.range 10).map (fun i => ((i : ℤ), ⟨SpiderKind.Z, 0, 1, (i : ℤ)⟩)) }

/-- Valid 10-node path diagram (has edges). -/
def tenPath : ZXGraph :=
  { nodes := (List.range 10).map Int.ofNat,
    edges := (List.range 9).map (fun i => ((i : ℤ), (i : ℤ) + 1)),
    labels := (List.range 10).map (fun i => ((i : ℤ), ⟨SpiderKind.Z, 0, 1, (i : ℤ)⟩)) }

/-- Two nodes joined by a duplicated edge entry. -/
def dupEdgeGraph : ZXGraph :=
  { nodes := [0, 1], edges := [(0, 1), (0, 1)],
    labels := [(0, ⟨SpiderKind.Z, 0, 1, 0⟩), (1, ⟨SpiderKind.Z, 0, 1, 1⟩)] }

/-- Same two nodes with the edge listed once. -/
def oneEdgeGraph : ZXGraph :=
  { nodes := [0, 1], edges := [(0, 1)],
    labels := [(0, ⟨SpiderKind.Z, 0, 1, 0⟩), (1, ⟨SpiderKind.Z, 0, 1, 1⟩)] }

/-- Canonical phases: every label satisfies `0 ≤ numer < 2 * denom`, i.e. its
phase lies in `[0, 2*pi)` (the dyadic grid of spec §3). -/
def canonical_phases (d : ZXGraph) : Bool :=
  d.labels.all (fun p =>
    decide (0 ≤ p.2.phase_numer) && decide (p.2.phase_numer < 2 * p.2.phase_denom))

/-- A diagram that passes `ZXGraph.validate` and whose labels all pass the
`NodeLabel` constructor checks. -/
def GraphOK (g : ZXGraph) : Prop :=
  validate g = true ∧ labels_valid g = true

/-- Invariant carried by every reachable engine state: the mode diagram is
valid (structurally and label-wise), and the distribution is a nonnegative
vector of the ensemble's length summing to exactly 1. -/
def StateInv (s : EngineState) : Prop :=
  GraphOK s.modeGraph ∧
  s.rho.sum = 1 ∧ (∀ x ∈ s.rho, 0 ≤ x) ∧ s.rho.length = s.ensemble.length

end SCCMU

namespace SCCMU

/-! ### Power-of-two characterization of the bit trick `n & (n - 1) == 0` -/


theorem two_mul_land_pred (m : ℕ) (hm : 0 < m) :
    (2 * m) &&& (2 * m - 1) = 2 * (m &&& (m - 1)) := by
  apply Nat.eq_of_testBit_eq
  intro i
  cases i with
  | zero =>
      have e1 : (2 * m) % 2 = 0 := Nat.mul_mod_right 2 m
      have e2 : (2 * (m &&& (m - 1))) % 2 = 0 := Nat.mul_mod_right 2 _
      rw [Nat.testBit_land, Nat.testBit_zero, Nat.testBit_zero, Nat.testBit_zero, e1, e2]
      simp
  | succ i =>
      have h1 : (2 * m) / 2 = m := by omega
      have h2 : (2 * m - 1) / 2 = m - 1 := by omega
      have h3 : (2 * (m &&& (m - 1))) / 2 = m &&& (m - 1) := by omega
      rw [Nat.testBit_land, Nat.testBit_succ, Nat.testBit_succ, h1, h2,
        Nat.testBit_succ, h3, Nat.testBit_land]

theorem odd_land_pred (m : ℕ) : (2 * m + 1) &&& (2 * m) = 2 * m := by
  apply Nat.eq_of_testBit_eq
  intro i
  cases i with
  | zero =>
      have e1 : (2 * m + 1) % 2 = 1 := by omega
      have e2 : (2 * m) % 2 = 0 := Nat.mul_mod_right 2 m
      rw [Nat.testBit_land, Nat.testBit_zero, Nat.testBit_zero, e1, e2]
      simp
  | succ i =>
      have h1 : (2 * m + 1) / 2 = m := by omega
      have h2 : (2 * m) / 2 = m := by omega
      rw [Nat.testBit_land, Nat.testBit_succ, Nat.testBit_succ, h1, h2, Bool.and_self]

theorem land_pred_eq_zero_iff (n : ℕ) (hn : 0 < n) :
    n &&& (n - 1) = 0 ↔ ∃ k : ℕ, n = 2 ^ k := by
  induction n using Nat.strong_induction_on with
  | _ n ih =>
    rcases Nat.even_or_odd n with ⟨m, hm⟩ | ⟨m, hm⟩
    · have hm2 : n = 2 * m := by omega
      have hmpos : 0 < m := by omega
      subst hm2
      rw [two_mul_land_pred m hmpos]
      have hrec := ih m (by omega) hmpos
      constructor
      · intro h
        have hz : m &&& (m - 1) = 0 := by omega
        obtain ⟨k, hk⟩ := hrec.mp hz
        exact ⟨k + 1, by rw [hk]; ring⟩
      · rintro ⟨k, hk⟩
        cases k with
        | zero => omega
        | succ k =>
            have hmk : m = 2 ^ k := by
              have : 2 * m = 2 * 2 ^ k := by rw [hk]; ring
              omega
            have := hrec.mpr ⟨k, hmk⟩
            omega
    · subst hm
      have he : (2 * m + 1) - 1 = 2 * m := by omega
      rw [he, odd_land_pred]
      constructor
      · intro h
        exact ⟨0, by omega⟩
      · rintro ⟨k, hk⟩
        cases k with
        | zero => omega
        | succ k =>
            exfalso
            have : 2 * m + 1 = 2 * 2 ^ k := by rw [hk]; ring
            omega

theorem is_power_of_2_iff (n : ℤ) : is_power_of_2 n = true ↔ ∃ k : ℕ, n = 2 ^ k := by
  unfold is_power_of_2
  simp only [Bool.and_eq_true, decide_eq_true_eq]
  constructor
  · rintro ⟨hpos, hbit⟩
    obtain ⟨k, hk⟩ := (land_pred_eq_zero_iff n.toNat (by omega)).mp hbit
    refine ⟨k, ?_⟩
    have hcast : ((n.toNat : ℤ)) = n := Int.toNat_of_nonneg (le_of_lt hpos)
    rw [← hcast, hk]
    push_cast
    ring
  · rintro ⟨k, hk⟩
    have hpos : (0 : ℤ) < n := by rw [hk]; positivity
    refine ⟨hpos, ?_⟩
    have htn : n.toNat = 2 ^ k := by
      have : ((n.toNat : ℤ)) = ((2 ^ k : ℕ) : ℤ) := by
        rw [Int.toNat_of_nonneg (le_of_lt hpos), hk]; push_cast; ring
      exact_mod_cast this
    rw [htn]
    exact (land_pred_eq_zero_iff (2 ^ k) (by positivity)).mpr ⟨k, rfl⟩

theorem pow2_pos_of_is_power_of_2 {n : ℤ} (h : is_power_of_2 n = true) : 0 < n := by
  obtain ⟨k, hk⟩ := (is_power_of_2_iff n).mp h
  rw [hk]; positivity

/-! ### Phase arithmetic canonical form -/

theorem normalize_phase_canonical (n : ℤ) (c : ℕ) :
    (∃ k : ℕ, (normalize_phase n (2 ^ c)).2 = 2 ^ k) ∧
    0 ≤ (normalize_phase n (2 ^ c)).1 ∧
    (normalize_phase n (2 ^ c)).1 < 2 * (normalize_phase n (2 ^ c)).2 := by
  have hmpos : (0 : ℤ) < 2 * 2 ^ c := by positivity
  simp only [normalize_phase]
  set nm := n % (2 * 2 ^ c) with hnmdef
  have hnm0 : 0 ≤ nm := Int.emod_nonneg n (by positivity)
  have hnmlt : nm < 2 * 2 ^ c := Int.emod_lt_of_pos n hmpos
  have hgdvdN : nm.gcd (2 ^ c) ∣ 2 ^ c := by
    have hz : ((nm.gcd (2 ^ c) : ℕ) : ℤ) ∣ ((2 ^ c : ℕ) : ℤ) := by
      push_cast
      exact Int.gcd_dvd_right
    exact_mod_cast hz
  obtain ⟨k, hkc, hgk⟩ := (Nat.dvd_prime_pow Nat.prime_two).mp hgdvdN
  set g : ℤ := ((nm.gcd (2 ^ c) : ℕ) : ℤ) with hgdef
  have hgpos : (0 : ℤ) < g := by rw [hgdef, hgk]; positivity
  have hgne : g ≠ 0 := ne_of_gt hgpos
  obtain ⟨u, hu⟩ : g ∣ nm := Int.gcd_dvd_left
  obtain ⟨v, hv⟩ : g ∣ 2 ^ c := Int.gcd_dvd_right
  rw [if_pos hgpos]
  have hdivn : nm / g = u := by rw [hu]; exact Int.mul_ediv_cancel_left u hgne
  have hdivc : (2 : ℤ) ^ c / g = v := by rw [hv]; exact Int.mul_ediv_cancel_left v hgne
  refine ⟨⟨c - k, ?_⟩, ?_, ?_⟩
  · have hsplit : (2 : ℤ) ^ c = g * 2 ^ (c - k) := by
      rw [hgdef, hgk]
      push_cast
      rw [← pow_add]
      congr 1
      omega
    show (2 : ℤ) ^ c / g = 2 ^ (c - k)
    rw [hsplit, Int.mul_ediv_cancel_left _ hgne]
  · exact Int.ediv_nonneg hnm0 (le_of_lt hgpos)
  · show nm / g < 2 * ((2 : ℤ) ^ c / g)
    rw [hdivn, hdivc]
    have hlt : g * u < g * (2 * v) := by
      calc g * u = nm := hu.symm
        _ < 2 * 2 ^ c := hnmlt
        _ = g * (2 * v) := by rw [hv]; ring
    exact lt_of_mul_lt_mul_left hlt (le_of_lt hgpos)

theorem max_pow_two (a b : ℕ) : max ((2 : ℤ) ^ a) ((2 : ℤ) ^ b) = 2 ^ (max a b) := by
  rcases le_total a b with hab | hab
  · rw [max_eq_right (pow_le_pow_right₀ (by norm_num) hab), max_eq_right hab]
  · rw [max_eq_left (pow_le_pow_right₀ (by norm_num) hab), max_eq_left hab]

theorem add_phases_canonical (n1 d1 n2 d2 : ℤ)
    (h1 : is_power_of_2 d1 = true) (h2 : is_power_of_2 d2 = true) :
    is_power_of_2 (add_phases n1 d1 n2 d2).2 = true ∧
    0 ≤ (add_phases n1 d1 n2 d2).1 ∧
    (add_phases n1 d1 n2 d2).1 < 2 * (add_phases n1 d1 n2 d2).2 := by
  obtain ⟨a, ha⟩ := (is_power_of_2_iff d1).mp h1
  obtain ⟨b, hb⟩ := (is_power_of_2_iff d2).mp h2
  have hmax : max d1 d2 = 2 ^ (max a b) := by rw [ha, hb]; exact max_pow_two a b
  have hres := normalize_phase_canonical (n1 * (max d1 d2 / d1) + n2 * (max d1 d2 / d2)) (max a b)
  rw [← hmax] at hres
  have heq : add_phases n1 d1 n2 d2 =
      normalize_phase (n1 * (max d1 d2 / d1) + n2 * (max d1 d2 / d2)) (max d1 d2) := by
    simp only [add_phases]
  rw [heq]
  exact ⟨(is_power_of_2_iff _).mpr hres.1, hres.2.1, hres.2.2⟩

end SCCMU

namespace SCCMU

/-- C5: for power-of-two denominators, `add_phases` returns a canonical reduced
residue `(n, d)` with `d` a power of two and `0 ≤ n < 2*d`; in particular
`add_phases 0 1 1 4 = (1, 4)` and `add_phases 1 4 1 4 = (1, 2)`. -/
theorem c5_add_phases_correct :
    (∀ n1 d1 n2 d2 : ℤ, is_power_of_2 d1 = true → is_power_of_2 d2 = true →
      is_power_of_2 (add_phases n1 d1 n2 d2).2 = true ∧
      0 ≤ (add_phases n1 d1 n2 d2).1 ∧
      (add_phases n1 d1 n2 d2).1 < 2 * (add_phases n1 d1 n2 d2).2) ∧
    add_phases 0 1 1 4 = (1, 4) ∧ add_phases 1 4 1 4 = (1, 2) :=
  ⟨fun n1 d1 n2 d2 h1 h2 => add_phases_canonical n1 d1 n2 d2 h1 h2, by decide, by decide⟩

/-- Witness for C5 at the concrete input `add_phases 3 2 5 8`. -/
theorem c5_witness :
    is_power_of_2 (2 : ℤ) = true ∧ is_power_of_2 (8 : ℤ) = true ∧
    (is_power_of_2 (add_phases 3 2 5 8).2 = true ∧ 0 ≤ (add_phases 3 2 5 8).1 ∧
      (add_phases 3 2 5 8).1 < 2 * (add_phases 3 2 5 8).2) :=
  ⟨by decide, by decide, c5_add_phases_correct.1 3 2 5 8 (by decide) (by decide)⟩

/-- C6: the Python validation pipeline (the `NodeLabel` constructor checks plus
`ZXGraph.validate`) succeeds exactly on well-formed diagrams and fails precisely
when an edge references an unknown node, a node has no label, a label's phase
denominator is not a power of two, or an edge is a self-loop. -/
theorem c6_validate_characterization (d : ZXGraph) :
    validateDiagram d = true ↔
      ¬ ((∃ e ∈ d.edges, e.1 ∉ d.nodes ∨ e.2 ∉ d.nodes) ∨
         (∃ v ∈ d.nodes, dictGet d.labels v = none) ∨
         (∃ p ∈ d.labels, ¬ ∃ k : ℕ, p.2.phase_denom = 2 ^ k) ∨
         (∃ e ∈ d.edges, e.1 = e.2)) := by
  simp only [validateDiagram, validate, labels_valid, label_post_init, Bool.and_eq_true,
    List.all_eq_true, decide_eq_true_eq, Option.isSome_iff_ne_none, is_power_of_2_iff]
  push_neg
  constructor
  · rintro ⟨⟨hedges, hnodes⟩, hlabels⟩
    exact ⟨fun e he => ⟨(hedges e he).1.2, (hedges e he).2⟩, hnodes,
      fun p hp => (hlabels p hp).2, fun e he => (hedges e he).1.1⟩
  · rintro ⟨hmem, hnodes, hpow, hloop⟩
    refine ⟨⟨fun e he => ⟨⟨hloop e he, (hmem e he).1⟩, (hmem e he).2⟩, hnodes⟩,
      fun p hp => ⟨?_, hpow p hp⟩⟩
    obtain ⟨k, hk⟩ := hpow p hp
    rw [hk]; positivity

/-- C7 counterexample: two valid diagrams with the same node count, identical
labels, and equal edge sets, on which `graphs_equal` nevertheless returns
`False` (the edge list of the first contains a duplicate entry, so the edge
count check fails). -/
theorem c7_counterexample :
    (dupEdgeGraph.nodes.length = oneEdgeGraph.nodes.length ∧
     (∀ v ∈ dupEdgeGraph.nodes, v ∈ oneEdgeGraph.nodes ∧
        dictGet dupEdgeGraph.labels v = dictGet oneEdgeGraph.labels v) ∧
     (∀ e ∈ dupEdgeGraph.edges, e ∈ oneEdgeGraph.edges) ∧
     (∀ e ∈ oneEdgeGraph.edges, e ∈ dupEdgeGraph.edges)) ∧
    validateDiagram dupEdgeGraph = true ∧ validateDiagram oneEdgeGraph = true ∧
    graphs_equal dupEdgeGraph oneEdgeGraph = false := by decide

/-- C7 amended: for diagrams whose edge lists contain no duplicate entries,
`graphs_equal` returns `True` iff the node counts agree, every node of the first
appears in the second with the same label, and the edge sets coincide. -/
theorem c7_graphs_equal_amended (G1 G2 : ZXGraph)
    (h1 : G1.edges.Nodup) (h2 : G2.edges.Nodup) :
    graphs_equal G1 G2 = true ↔
      (G1.nodes.length = G2.nodes.length ∧
       (∀ v ∈ G1.nodes, v ∈ G2.nodes ∧ dictGet G1.labels v = dictGet G2.labels v) ∧
       (∀ e, e ∈ G1.edges ↔ e ∈ G2.edges)) := by
  simp only [graphs_equal, Bool.and_eq_true, List.all_eq_true, decide_eq_true_eq]
  constructor
  · rintro ⟨⟨⟨hn, he⟩, hlab⟩, hsub1, hsub2⟩
    exact ⟨hn, fun v hv => hlab v hv, fun e => ⟨fun h => hsub1 e h, fun h => hsub2 e h⟩⟩
  · rintro ⟨hn, hlab, hset⟩
    have hperm : G1.edges.Perm G2.edges := (List.perm_ext_iff_of_nodup h1 h2).mpr hset
    exact ⟨⟨⟨hn, hperm.length_eq⟩, hlab⟩, fun e he => (hset e).mp he,
      fun e he => (hset e).mpr he⟩

/-- Witness for C7 at the seed diagram compared with itself. -/
theorem c7_witness :
    create_seed_graph.edges.Nodup ∧
    (graphs_equal create_seed_graph create_seed_graph = true ↔
      (create_seed_graph.nodes.length = create_seed_graph.nodes.length ∧
       (∀ v ∈ create_seed_graph.nodes, v ∈ create_seed_graph.nodes ∧
          dictGet create_seed_graph.labels v = dictGet create_seed_graph.labels v) ∧
       (∀ e, e ∈ create_seed_graph.edges ↔ e ∈ create_seed_graph.edges))) :=
  ⟨by decide, c7_graphs_equal_amended create_seed_graph create_seed_graph
    (by decide) (by decide)⟩

end SCCMU

namespace SCCMU

theorem get_beta_of_le (s : AnnealingSchedule) (step : ℕ) (h : s.total_steps ≤ step) :
    get_beta s step = s.beta_final := by
  simp [get_beta, h]

theorem progress_nonneg (s : AnnealingSchedule) (step : ℕ) :
    0 ≤ (step : ℝ) / (s.total_steps : ℝ) := by positivity

theorem progress_le_one (s : AnnealingSchedule) (step : ℕ) (h : step < s.total_steps) :
    (step : ℝ) / (s.total_steps : ℝ) ≤ 1 := by
  have ht : (0 : ℝ) < (s.total_steps : ℝ) := by
    have : 0 < s.total_steps := by omega
    exact_mod_cast this
  rw [div_le_one ht]
  exact_mod_cast le_of_lt h

theorem get_beta_linear_val (s : AnnealingSchedule) (step : ℕ) (h : step < s.total_steps)
    (ht : s.schedule_type = ScheduleKind.linear) :
    get_beta s step = s.beta_initial +
      ((step : ℝ) / (s.total_steps : ℝ)) * (s.beta_final - s.beta_initial) := by
  rw [get_beta, if_neg (by omega), ht]

theorem get_beta_exp_val (s : AnnealingSchedule) (step : ℕ) (h : step < s.total_steps)
    (ht : s.schedule_type = ScheduleKind.exponential) :
    get_beta s step = s.beta_initial *
      Real.exp (Real.log (s.beta_final / s.beta_initial) * ((step : ℝ) / (s.total_steps : ℝ))) := by
  rw [get_beta, if_neg (by omega), ht]

theorem linear_val_mono (s : AnnealingSchedule) (hif : s.beta_initial < s.beta_final)
    {p q : ℝ} (hp : p ≤ q) :
    s.beta_initial + p * (s.beta_final - s.beta_initial) ≤
      s.beta_initial + q * (s.beta_final - s.beta_initial) := by
  have hd : 0 ≤ s.beta_final - s.beta_initial := by linarith
  nlinarith

theorem exp_val_mono (s : AnnealingSchedule) (hi : 0 < s.beta_initial)
    (hif : s.beta_initial < s.beta_final) {p q : ℝ} (hp : p ≤ q) :
    s.beta_initial * Real.exp (Real.log (s.beta_final / s.beta_initial) * p) ≤
      s.beta_initial * Real.exp (Real.log (s.beta_final / s.beta_initial) * q) := by
  have hk : 0 < Real.log (s.beta_final / s.beta_initial) :=
    Real.log_pos ((one_lt_div hi).mpr hif)
  have : Real.log (s.beta_final / s.beta_initial) * p ≤
      Real.log (s.beta_final / s.beta_initial) * q :=
    mul_le_mul_of_nonneg_left hp (le_of_lt hk)
  exact mul_le_mul_of_nonneg_left (Real.exp_le_exp.mpr this) (le_of_lt hi)

theorem linear_val_le_final (s : AnnealingSchedule) (hif : s.beta_initial < s.beta_final)
    {p : ℝ} (hp0 : 0 ≤ p) (hp1 : p ≤ 1) :
    s.beta_initial + p * (s.beta_final - s.beta_initial) ≤ s.beta_final := by
  nlinarith

theorem exp_val_le_final (s : AnnealingSchedule) (hi : 0 < s.beta_initial)
    (hif : s.beta_initial < s.beta_final) {p : ℝ} (hp1 : p ≤ 1) :
    s.beta_initial * Real.exp (Real.log (s.beta_final / s.beta_initial) * p) ≤
      s.beta_final := by
  have hkp : Real.log (s.beta_final / s.beta_initial) * p ≤
      Real.log (s.beta_final / s.beta_initial) * 1 :=
    mul_le_mul_of_nonneg_left hp1
      (le_of_lt (Real.log_pos ((one_lt_div hi).mpr hif)))
  have hstep : s.beta_initial * Real.exp (Real.log (s.beta_final / s.beta_initial) * p) ≤
      s.beta_initial * Real.exp (Real.log (s.beta_final / s.beta_initial)) := by
    have := Real.exp_le_exp.mpr (by simpa using hkp)
    exact mul_le_mul_of_nonneg_left this (le_of_lt hi)
  have hlog : Real.exp (Real.log (s.beta_final / s.beta_initial)) =
      s.beta_final / s.beta_initial :=
    Real.exp_log (div_pos (lt_trans hi hif) hi)
  calc s.beta_initial * Real.exp (Real.log (s.beta_final / s.beta_initial) * p) ≤
        s.beta_initial * Real.exp (Real.log (s.beta_final / s.beta_initial)) := hstep
    _ = s.beta_final := by
        rw [hlog, mul_comm, div_mul_cancel₀ _ (ne_of_gt hi)]

/-- C8 counterexample: the exponential schedule with `total_steps = 0`,
`beta_initial = 1`, `beta_final = 2` satisfies `0 < beta_initial < beta_final`
but `get_beta 0` returns `beta_final = 2`, not `beta_initial = 1`. -/
theorem c8_counterexample :
    (0 : ℝ) < 1 ∧ (1 : ℝ) < 2 ∧
    get_beta { schedule_type := ScheduleKind.exponential, total_steps := 0,
               beta_initial := 1, beta_final := 2 } 0 ≠ 1 := by
  refine ⟨by norm_num, by norm_num, ?_⟩
  rw [get_beta_of_le _ _ (by decide)]
  norm_num

/-- C8 amended: for a schedule with `0 < beta_initial < beta_final`, `get_beta`
returns exactly `beta_final` once `step ≥ total_steps`; for the linear and
exponential kinds it is monotonically non-decreasing in `step`; and for the
exponential kind with `total_steps ≥ 1`, `get_beta 0 = beta_initial` exactly. -/
theorem c8_get_beta_amended (s : AnnealingSchedule)
    (hi : 0 < s.beta_initial) (hif : s.beta_initial < s.beta_final) :
    (∀ step, s.total_steps ≤ step → get_beta s step = s.beta_final) ∧
    ((s.schedule_type = ScheduleKind.linear ∨ s.schedule_type = ScheduleKind.exponential) →
      Monotone (get_beta s)) ∧
    (s.schedule_type = ScheduleKind.exponential → 1 ≤ s.total_steps →
      get_beta s 0 = s.beta_initial) := by
  refine ⟨fun step h => get_beta_of_le s step h, ?_, ?_⟩
  · rintro (ht | ht) a b hab
    · rcases le_or_lt s.total_steps a with ha | ha
      · rw [get_beta_of_le s a ha, get_beta_of_le s b (le_trans ha hab)]
      · rcases le_or_lt s.total_steps b with hb | hb
        · rw [get_beta_linear_val s a ha ht, get_beta_of_le s b hb]
          exact linear_val_le_final s hif (progress_nonneg s a) (progress_le_one s a ha)
        · rw [get_beta_linear_val s a ha ht, get_beta_linear_val s b hb ht]
          refine linear_val_mono s hif ?_
          gcongr
    · rcases le_or_lt s.total_steps a with ha | ha
      · rw [get_beta_of_le s a ha, get_beta_of_le s b (le_trans ha hab)]
      · rcases le_or_lt s.total_steps b with hb | hb
        · rw [get_beta_exp_val s a ha ht, get_beta_of_le s b hb]
          exact exp_val_le_final s hi hif (progress_le_one s a ha)
        · rw [get_beta_exp_val s a ha ht, get_beta_exp_val s b hb ht]
          refine exp_val_mono s hi hif ?_
          gcongr
  · intro ht htot
    rw [get_beta_exp_val s 0 (by omega) ht]
    simp

/-- Witness for C8 at the schedule (exponential, 100 steps, 1 to 2). -/
theorem c8_witness :
    (0 : ℝ) < 1 ∧ (1 : ℝ) < 2 ∧
    (∀ step, 100 ≤ step →
      get_beta ⟨ScheduleKind.exponential, 100, 1, 2⟩ step = 2) ∧
    Monotone (get_beta ⟨ScheduleKind.exponential, 100, 1, 2⟩) ∧
    get_beta ⟨ScheduleKind.exponential, 100, 1, 2⟩ 0 = 1 := by
  have h := c8_get_beta_amended ⟨ScheduleKind.exponential, 100, 1, 2⟩
    (by norm_num) (by norm_num)
  exact ⟨by norm_num, by norm_num, h.1, h.2.1 (Or.inr rfl), h.2.2 rfl (by norm_num)⟩

end SCCMU

namespace SCCMU

/-! ### Distribution update of `evolve_step` (claims C1, C9 support) -/

theorem sum_map_const_real (l : List ℝ) (m : ℝ) :
    (l.map (fun _ => m)).sum = (l.length : ℝ) * m := by
  induction l with
  | nil => simp
  | cons x xs ih => simp [ih]; ring

theorem sum_map_neg_real (l : List ℝ) : (l.map (fun x => -x)).sum = -l.sum := by
  induction l with
  | nil => simp
  | cons x xs ih => simp [ih]; ring

theorem sum_map_div_real (l : List ℝ) (c : ℝ) :
    (l.map (fun x => x / c)).sum = l.sum / c := by
  induction l with
  | nil => simp
  | cons x xs ih => simp [ih]; ring

/-- The mean-subtracted update direction sums to zero (exact arithmetic). -/
theorem direction_sum_zero (deltaF : List ℝ) (h : deltaF ≠ []) :
    (deltaF.map (fun x => -x + listMean deltaF)).sum = 0 := by
  have hlen : (deltaF.length : ℝ) ≠ 0 := by
    have : deltaF.length ≠ 0 := fun hc => h (List.length_eq_zero.mp hc)
    exact_mod_cast this
  have hsplit : (deltaF.map (fun x => -x + listMean deltaF)).sum =
      (deltaF.map (fun x => -x)).sum + (deltaF.map (fun _ => listMean deltaF)).sum :=
    List.sum_map_add
  rw [hsplit, sum_map_neg_real, sum_map_const_real, listMean]
  field_simp

theorem zip_add_mul_sum (dt : ℝ) (l1 : List ℝ) : ∀ l2 : List ℝ, l1.length = l2.length →
    ((l1.zip l2).map (fun q => q.1 + q.2 * dt)).sum = l1.sum + dt * l2.sum := by
  induction l1 with
  | nil =>
      intro l2 h
      have : l2 = [] := List.length_eq_zero.mp h.symm
      subst this
      simp
  | cons x xs ih =>
      intro l2 h
      cases l2 with
      | nil => simp at h
      | cons y ys =>
          have hx := ih ys (by simpa using h)
          simp [List.zip_cons_cons, hx]
          ring

theorem rho_update_sum (rho deltaF : List ℝ) (dt : ℝ) (hlen : rho.length = deltaF.length)
    (hne : deltaF ≠ []) : (rho_update rho deltaF dt).sum = rho.sum := by
  unfold rho_update
  rw [zip_add_mul_sum dt rho (deltaF.map (fun x => -x + listMean deltaF)) (by simpa using hlen)]
  rw [direction_sum_zero deltaF hne]
  ring

theorem clip_sum_ge (l : List ℝ) : l.sum ≤ (clip_nonneg l).sum := by
  have h : l.sum = (l.map id).sum := by simp
  rw [h]
  exact List.sum_le_sum (fun x _ => le_max_left x 0)

theorem clip_mem_nonneg (l : List ℝ) : ∀ x ∈ clip_nonneg l, 0 ≤ x := by
  intro x hx
  obtain ⟨y, _, rfl⟩ := List.mem_map.mp hx
  exact le_max_right y 0

theorem renormalize_sum_one (l : List ℝ) (h : l.sum ≠ 0) : (renormalize l).sum = 1 := by
  unfold renormalize
  rw [sum_map_div_real, div_self h]

theorem renormalize_mem_nonneg (l : List ℝ) (hs : 0 ≤ l.sum) (hl : ∀ x ∈ l, 0 ≤ x) :
    ∀ x ∈ renormalize l, 0 ≤ x := by
  intro x hx
  obtain ⟨y, hy, rfl⟩ := List.mem_map.mp hx
  exact div_nonneg (hl y hy) hs

theorem step_rho_length (rho0 deltaF : List ℝ) (dt : ℝ) :
    (step_rho rho0 deltaF dt).length = min rho0.length deltaF.length := by
  simp [step_rho, renormalize, clip_nonneg, rho_update]

/-- Main invariant of the `evolve_step` distribution pipeline: the clipped sum
is at least 1 (so the renormalizing division is by a nonzero number), and the
final distribution is a nonnegative vector summing to exactly 1. -/
theorem step_rho_invariant (rho0 deltaF : List ℝ) (dt : ℝ)
    (hlen : rho0.length = deltaF.length) (hsum : rho0.sum = 1) :
    1 ≤ (clip_nonneg (rho_update rho0 deltaF dt)).sum ∧
    (step_rho rho0 deltaF dt).sum = 1 ∧
    (∀ x ∈ step_rho rho0 deltaF dt, 0 ≤ x) := by
  have hne0 : rho0 ≠ [] := by
    intro hc
    rw [hc] at hsum
    simp at hsum
  have hne : deltaF ≠ [] := by
    intro hc
    rw [hc] at hlen
    exact hne0 (List.length_eq_zero.mp (by simpa using hlen))
  have hupd : (rho_update rho0 deltaF dt).sum = 1 := by
    rw [rho_update_sum rho0 deltaF dt hlen hne, hsum]
  have hclip : 1 ≤ (clip_nonneg (rho_update rho0 deltaF dt)).sum := by
    calc (1 : ℝ) = (rho_update rho0 deltaF dt).sum := hupd.symm
      _ ≤ (clip_nonneg (rho_update rho0 deltaF dt)).sum := clip_sum_ge _
  have hpos : (0 : ℝ) < (clip_nonneg (rho_update rho0 deltaF dt)).sum := lt_of_lt_of_le one_pos hclip
  refine ⟨hclip, ?_, ?_⟩
  · exact renormalize_sum_one _ (ne_of_gt hpos)
  · exact renormalize_mem_nonneg _ (le_of_lt hpos) (clip_mem_nonneg _)

/-- C9: when the entering distribution sums to 1, the update direction
`-delta_F + mean(delta_F)` sums to exactly zero in exact arithmetic, the
clipped post-update vector sums to at least 1 (so the renormalizing division
is never by zero), and the renormalized distribution sums to exactly 1, for
every `dt`. -/
theorem c9_update_mass_safe (rho deltaF : List ℝ) (dt : ℝ)
    (hlen : rho.length = deltaF.length) (hsum : rho.sum = 1) :
    (deltaF.map (fun x => -x + listMean deltaF)).sum = 0 ∧
    1 ≤ (clip_nonneg (rho_update rho deltaF dt)).sum ∧
    (step_rho rho deltaF dt).sum = 1 := by
  have hne0 : rho ≠ [] := by
    intro hc
    rw [hc] at hsum
    simp at hsum
  have hne : deltaF ≠ [] := by
    intro hc
    rw [hc] at hlen
    exact hne0 (List.length_eq_zero.mp (by simpa using hlen))
  have h := step_rho_invariant rho deltaF dt hlen hsum
  exact ⟨direction_sum_zero deltaF hne, h.1, h.2.1⟩

/-- Witness for C9 at `rho = [1]`, `delta_F = [5]`, `dt = 37`. -/
theorem c9_witness :
    ([(1 : ℝ)].length = [(5 : ℝ)].length) ∧ ([(1 : ℝ)].sum = 1) ∧
    (([(5 : ℝ)].map (fun x => -x + listMean [(5 : ℝ)])).sum = 0 ∧
     1 ≤ (clip_nonneg (rho_update [(1 : ℝ)] [(5 : ℝ)] 37)).sum ∧
     (step_rho [(1 : ℝ)] [(5 : ℝ)] 37).sum = 1) :=
  ⟨rfl, by simp, c9_update_mass_safe [1] [5] 37 rfl (by simp)⟩

/-! ### Free-energy assertion behaviour (claim C10) -/

/-- C10: `compute_coherence_functional`, `compute_entropy` and
`compute_free_energy` fail their assertion whenever `rho` does not sum to 1
within `1e-6`; `compute_coherence_functional` also fails whenever the lengths
differ; and on valid diagrams with a matching `rho` summing to 1 within `1e-6`
all three return without error. -/
theorem c10_free_energy_asserts :
    (∀ (ds : List ZXGraph) (rho : List ℝ), ¬ |rho.sum - 1| < 1 / 1000000 →
      (compute_coherence_functional ds rho).isNone = true ∧
      (compute_entropy rho).isNone = true ∧
      (compute_free_energy ds rho BETA).isNone = true) ∧
    (∀ (ds : List ZXGraph) (rho : List ℝ), ds.length ≠ rho.length →
      (compute_coherence_functional ds rho).isNone = true) ∧
    (∀ (ds : List ZXGraph) (rho : List ℝ), (∀ d ∈ ds, validate d = true) →
      ds.length = rho.length → |rho.sum - 1| < 1 / 1000000 →
      (compute_coherence_functional ds rho).isSome = true ∧
      (compute_entropy rho).isSome = true ∧
      (compute_free_energy ds rho BETA).isSome = true) := by
  refine ⟨?_, ?_, ?_⟩
  · intro ds rho h
    have h2 : ¬ |rho.sum - 1| < (1000000 : ℝ)⁻¹ := by rwa [one_div] at h
    have hcf : (compute_coherence_functional ds rho) = none := by
      by_cases hl : ds.length = rho.length <;>
        simp [compute_coherence_functional, hl, h2]
    have hent : (compute_entropy rho) = none := by
      simp [compute_entropy, h2]
    refine ⟨by simp [hcf], by simp [hent], ?_⟩
    simp [compute_free_energy, hcf]
  · intro ds rho h
    simp [compute_coherence_functional, h]
  · intro ds rho hvalid hlen hsum
    have hsum2 : |rho.sum - 1| < (1000000 : ℝ)⁻¹ := by rwa [one_div] at hsum
    have hall : ds.all validate = true := List.all_eq_true.mpr hvalid
    have hcf : (compute_coherence_functional ds rho).isSome = true := by
      simp [compute_coherence_functional, hlen, hsum2, hall]
    have hent : (compute_entropy rho).isSome = true := by
      simp [compute_entropy, hsum2]
    refine ⟨hcf, hent, ?_⟩
    obtain ⟨L, hL⟩ := Option.isSome_iff_exists.mp hcf
    obtain ⟨S, hS⟩ := Option.isSome_iff_exists.mp hent
    simp [compute_free_energy, hL, hS]

/-- Witness for C10 on the seed diagram with `rho = [1]`. -/
theorem c10_witness :
    (∀ d ∈ [create_seed_graph], validate d = true) ∧
    [create_seed_graph].length = [(1 : ℝ)].length ∧
    |[(1 : ℝ)].sum - 1| < 1 / 1000000 ∧
    ((compute_coherence_functional [create_seed_graph] [(1 : ℝ)]).isSome = true ∧
     (compute_entropy [(1 : ℝ)]).isSome = true ∧
     (compute_free_energy [create_seed_graph] [(1 : ℝ)] BETA).isSome = true) :=
  ⟨by decide, rfl, by simp, c10_free_energy_asserts.2.2 [create_seed_graph] [(1 : ℝ)]
    (by decide) rfl (by simp)⟩

end SCCMU

namespace SCCMU

/-! ### Dictionary and fresh-id lemmas -/

theorem dictGet_mem {m : List (ℤ × NodeLabel)} {k : ℤ} {v : NodeLabel}
    (h : dictGet m k = some v) : (k, v) ∈ m := by
  induction m with
  | nil => simp [dictGet] at h
  | cons p rest ih =>
      by_cases hp : p.1 = k
      · rw [dictGet, if_pos hp] at h
        obtain ⟨p1, p2⟩ := p
        simp only [Option.some.injEq] at h
        simp only at hp
        subst hp
        subst h
        exact List.mem_cons_self _ _
      · rw [dictGet, if_neg hp] at h
        exact List.mem_cons_of_mem p (ih h)

theorem dictInsert_mem {m : List (ℤ × NodeLabel)} {k : ℤ} {v : NodeLabel} {p : ℤ × NodeLabel}
    (h : p ∈ dictInsert m k v) : p ∈ m ∨ p = (k, v) := by
  induction m with
  | nil => simp [dictInsert] at h; simp [h]
  | cons q rest ih =>
      by_cases hq : q.1 = k
      · rw [dictInsert, if_pos hq] at h
        rcases List.mem_cons.mp h with h1 | h1
        · right; exact h1
        · left; exact List.mem_cons_of_mem q h1
      · rw [dictInsert, if_neg hq] at h
        rcases List.mem_cons.mp h with h1 | h1
        · left; exact h1 ▸ List.mem_cons_self q rest
        · rcases ih h1 with h2 | h2
          · left; exact List.mem_cons_of_mem q h2
          · right; exact h2

theorem dictGet_insert_self (m : List (ℤ × NodeLabel)) (k : ℤ) (v : NodeLabel) :
    dictGet (dictInsert m k v) k = some v := by
  induction m with
  | nil => simp [dictInsert, dictGet]
  | cons q rest ih =>
      by_cases hq : q.1 = k
      · rw [dictInsert, if_pos hq, dictGet, if_pos rfl]
      · rw [dictInsert, if_neg hq, dictGet, if_neg hq]
        exact ih

theorem dictGet_insert_other (m : List (ℤ × NodeLabel)) (k u : ℤ) (v : NodeLabel)
    (h : u ≠ k) : dictGet (dictInsert m k v) u = dictGet m u := by
  induction m with
  | nil => simp [dictInsert, dictGet, Ne.symm h]
  | cons q rest ih =>
      by_cases hq : q.1 = k
      · rw [dictInsert, if_pos hq, dictGet, if_neg (fun hc : k = u => h hc.symm),
          dictGet, if_neg (by rw [hq]; exact fun hc : k = u => h hc.symm)]
      · rw [dictInsert, if_neg hq]
        by_cases hu : q.1 = u
        · rw [dictGet, if_pos hu, dictGet, if_pos hu]
        · rw [dictGet, if_neg hu, dictGet, if_neg hu]
          exact ih

theorem dictGet_insert_isSome (m : List (ℤ × NodeLabel)) (k u : ℤ) (v : NodeLabel)
    (h : (dictGet m u).isSome = true) : (dictGet (dictInsert m k v) u).isSome = true := by
  by_cases hu : u = k
  · subst hu
    rw [dictGet_insert_self]
    rfl
  · rw [dictGet_insert_other m k u v hu]
    exact h

theorem foldl_max_ge (xs : List ℤ) : ∀ a : ℤ, a ≤ xs.foldl max a ∧ ∀ y ∈ xs, y ≤ xs.foldl max a := by
  induction xs with
  | nil => intro a; exact ⟨le_refl a, by simp⟩
  | cons x xs ih =>
      intro a
      have h1 := ih (max a x)
      refine ⟨le_trans (le_max_left a x) h1.1, ?_⟩
      intro y hy
      rcases List.mem_cons.mp hy with rfl | hy2
      · exact le_trans (le_max_right a y) h1.1
      · exact h1.2 y hy2

theorem le_maxNode {l : List ℤ} {y : ℤ} (h : y ∈ l) : y ≤ maxNode l := by
  cases l with
  | nil => simp at h
  | cons x xs =>
      rcases List.mem_cons.mp h with rfl | hy
      · exact (foldl_max_ge xs y).1
      · exact (foldl_max_ge xs x).2 y hy

theorem lt_newNodeId {l : List ℤ} {y : ℤ} (h : y ∈ l) : y < newNodeId l := by
  have hne : l ≠ [] := by intro hc; subst hc; simp at h
  rw [newNodeId, if_neg hne]
  have := le_maxNode h
  omega

theorem newNodeId_not_mem (l : List ℤ) : newNodeId l ∉ l := by
  intro h
  exact absurd rfl (ne_of_lt (lt_newNodeId h))

end SCCMU

namespace SCCMU

/-! ### Variation generation preserves validity -/

theorem validate_iff (g : ZXGraph) :
    validate g = true ↔
      ((∀ e ∈ g.edges, e.1 ≠ e.2 ∧ e.1 ∈ g.nodes ∧ e.2 ∈ g.nodes) ∧
       ∀ v ∈ g.nodes, (dictGet g.labels v).isSome = true) := by
  unfold validate
  simp only [Bool.and_eq_true, List.all_eq_true, decide_eq_true_eq]
  constructor
  · rintro ⟨h1, h2⟩
    exact ⟨fun e he => ⟨(h1 e he).1.1, (h1 e he).1.2, (h1 e he).2⟩, h2⟩
  · rintro ⟨h1, h2⟩
    exact ⟨fun e he => ⟨⟨(h1 e he).1, (h1 e he).2.1⟩, (h1 e he).2.2⟩, h2⟩

theorem labels_valid_iff (g : ZXGraph) :
    labels_valid g = true ↔ ∀ p ∈ g.labels, label_post_init p.2 = true := by
  unfold labels_valid
  exact List.all_eq_true

theorem label_post_init_iff (l : NodeLabel) :
    label_post_init l = true ↔ is_power_of_2 l.phase_denom = true := by
  unfold label_post_init
  simp only [Bool.and_eq_true, decide_eq_true_eq]
  exact ⟨fun h => h.2, fun h => ⟨pow2_pos_of_is_power_of_2 h, h⟩⟩

theorem mkNodeLabel_of_pow2 (k : SpiderKind) (pn pd nid : ℤ)
    (h : is_power_of_2 pd = true) : mkNodeLabel k pn pd nid = some ⟨k, pn, pd, nid⟩ := by
  rw [mkNodeLabel, if_pos ⟨pow2_pos_of_is_power_of_2 h, h⟩]

theorem replace_label_ok (g : ZXGraph) (v : ℤ) (lbl : NodeLabel)
    (hok : GraphOK g) (hlbl : label_post_init lbl = true) :
    GraphOK { g with labels := dictInsert g.labels v lbl } := by
  obtain ⟨hval, hlab⟩ := hok
  obtain ⟨hedges, hnodes⟩ := (validate_iff g).mp hval
  constructor
  · apply (validate_iff _).mpr
    refine ⟨fun e he => hedges e he, fun u hu => ?_⟩
    exact dictGet_insert_isSome g.labels v u lbl (hnodes u hu)
  · apply (labels_valid_iff _).mpr
    intro p hp
    rcases dictInsert_mem hp with h1 | h1
    · exact (labels_valid_iff g).mp hlab p h1
    · rw [h1]
      exact hlbl

theorem add_node_variation_spec (g : ZXGraph) (src : ℤ) (k : SpiderKind) (pn : ℤ)
    (hok : GraphOK g) (hsrc : src ∈ g.nodes) :
    ∃ w, add_node_variation g src k pn = some w ∧ GraphOK w := by
  obtain ⟨hval, hlab⟩ := hok
  obtain ⟨hedges, hnodes⟩ := (validate_iff g).mp hval
  refine ⟨{ nodes := g.nodes ++ [newNodeId g.nodes],
            edges := g.edges ++ [(src, newNodeId g.nodes)],
            labels := dictInsert g.labels (newNodeId g.nodes)
              ⟨k, pn, 8, newNodeId g.nodes⟩ }, ?_, ?_, ?_⟩
  · rw [add_node_variation, mkNodeLabel_of_pow2 _ _ _ _ (by decide)]
    rfl
  · apply (validate_iff _).mpr
    constructor
    · intro e he
      rcases List.mem_append.mp he with h1 | h1
      · exact ⟨(hedges e h1).1, List.mem_append_left _ (hedges e h1).2.1,
          List.mem_append_left _ (hedges e h1).2.2⟩
      · have he2 : e = (src, newNodeId g.nodes) := by simpa using h1
        subst he2
        exact ⟨ne_of_lt (lt_newNodeId hsrc), List.mem_append_left _ hsrc,
          List.mem_append_right _ (by simp)⟩
    · intro u hu
      rcases List.mem_append.mp hu with h1 | h1
      · exact dictGet_insert_isSome _ _ _ _ (hnodes u h1)
      · have hu2 : u = newNodeId g.nodes := by simpa using h1
        subst hu2
        rw [dictGet_insert_self]
        rfl
  · apply (labels_valid_iff _).mpr
    intro p hp
    rcases dictInsert_mem hp with h1 | h1
    · exact (labels_valid_iff g).mp hlab p h1
    · rw [h1]
      exact (label_post_init_iff _).mpr (by decide : is_power_of_2 (8 : ℤ) = true)

theorem flip_variation_spec (g : ZXGraph) (v : ℤ) (hok : GraphOK g) (hv : v ∈ g.nodes) :
    ∃ w, flip_variation g v = some w ∧ GraphOK w := by
  have hsome := ((validate_iff g).mp hok.1).2 v hv
  obtain ⟨old, hold⟩ := Option.isSome_iff_exists.mp hsome
  have holdvalid : label_post_init old = true :=
    (labels_valid_iff g).mp hok.2 (v, old) (dictGet_mem hold)
  have hpow : is_power_of_2 old.phase_denom = true := (label_post_init_iff old).mp holdvalid
  obtain ⟨newl, hnewl⟩ : ∃ l : NodeLabel,
      l = ⟨flipKind old.kind, old.phase_numer, old.phase_denom, old.node_id⟩ := ⟨_, rfl⟩
  refine ⟨{ g with labels := dictInsert g.labels v newl }, ?_, ?_⟩
  · simp only [flip_variation, hold, mkNodeLabel_of_pow2 _ _ _ _ hpow, Option.map_some', hnewl]
  · refine replace_label_ok g v _ hok ?_
    rw [hnewl]
    exact (label_post_init_iff _).mpr hpow

theorem phase_variation_spec (g : ZXGraph) (v : ℤ) (hok : GraphOK g) (hv : v ∈ g.nodes) :
    ∃ w, phase_variation g v = some w ∧ GraphOK w := by
  have hsome := ((validate_iff g).mp hok.1).2 v hv
  obtain ⟨old, hold⟩ := Option.isSome_iff_exists.mp hsome
  have holdvalid : label_post_init old = true :=
    (labels_valid_iff g).mp hok.2 (v, old) (dictGet_mem hold)
  have hpow : is_power_of_2 old.phase_denom = true := (label_post_init_iff old).mp holdvalid
  have hnewpow : is_power_of_2 (add_phases old.phase_numer old.phase_denom 1 8).2 = true :=
    (add_phases_canonical old.phase_numer old.phase_denom 1 8 hpow (by decide)).1
  obtain ⟨newl, hnewl⟩ : ∃ l : NodeLabel,
      l = ⟨old.kind, (add_phases old.phase_numer old.phase_denom 1 8).1,
           (add_phases old.phase_numer old.phase_denom 1 8).2, old.node_id⟩ := ⟨_, rfl⟩
  refine ⟨{ g with labels := dictInsert g.labels v newl }, ?_, ?_⟩
  · simp only [phase_variation, hold, mkNodeLabel_of_pow2 _ _ _ _ hnewpow, Option.map_some',
      hnewl]
  · refine replace_label_ok g v _ hok ?_
    rw [hnewl]
    exact (label_post_init_iff _).mpr hnewpow

/-- Generic shape of the variation-appending folds: each step either keeps the
accumulator or appends one diagram satisfying `P`; the fold then succeeds and
extends the accumulator. -/
theorem foldlM_extends {α : Type} (P : ZXGraph → Prop) :
    ∀ (items : List α) (f : List ZXGraph → α → Option (List ZXGraph)),
      (∀ acc x, x ∈ items → ∃ out2, f acc x = some out2 ∧
        (out2 = acc ∨ ∃ w, P w ∧ out2 = acc ++ [w])) →
      ∀ acc, ∃ out, List.foldlM f acc items = some out ∧
        ∃ ext, out = acc ++ ext ∧ ∀ a ∈ ext, P a := by
  intro items
  induction items with
  | nil =>
      intro f _ acc
      exact ⟨acc, by simp [List.foldlM_nil], [], by simp, by simp⟩
  | cons x xs ih =>
      intro f hf acc
      obtain ⟨out2, hout2, hcase⟩ := hf acc x (by simp)
      obtain ⟨out, hout, ext, hext, hPext⟩ :=
        ih f (fun a y hy => hf a y (List.mem_cons_of_mem x hy)) out2
      refine ⟨out, ?_, ?_⟩
      · rw [List.foldlM_cons, hout2]
        simpa using hout
      · rcases hcase with rfl | ⟨w, hPw, rfl⟩
        · exact ⟨ext, hext, hPext⟩
        · refine ⟨w :: ext, by simpa using hext, ?_⟩
          intro a ha
          rcases List.mem_cons.mp ha with rfl | ha2
          · exact hPw
          · exact hPext a ha2

theorem add_node_section_spec (g : ZXGraph) (maxVar : ℕ) (rnd : ℕ → SpiderKind × ℤ)
    (acc : List ZXGraph) (hok : GraphOK g) :
    ∃ out, add_node_section g maxVar rnd acc = some out ∧
      ∃ ext, out = acc ++ ext ∧ ∀ a ∈ ext, GraphOK a := by
  unfold add_node_section
  by_cases hcond : g.nodes.length < 15 ∧ acc.length < maxVar
  · rw [if_pos hcond]
    apply foldlM_extends GraphOK
    intro acc2 iv hiv
    have hsrc : iv.2 ∈ g.nodes := List.take_subset 3 g.nodes (List.snd_mem_of_mem_enum hiv)
    obtain ⟨w, hw, hPw⟩ := add_node_variation_spec g iv.2 (rnd iv.1).1 (rnd iv.1).2 hok hsrc
    exact ⟨acc2 ++ [w], by rw [hw]; rfl, Or.inr ⟨w, hPw, rfl⟩⟩
  · rw [if_neg hcond]
    exact ⟨acc, rfl, [], by simp, by simp⟩

theorem capped_append_spec (maxVar : ℕ) (mk : ℤ → Option ZXGraph) (items : List ℤ)
    (acc : List ZXGraph)
    (hmk : ∀ v ∈ items, ∃ w, mk v = some w ∧ GraphOK w) :
    ∃ out, capped_append maxVar mk acc items = some out ∧
      ∃ ext, out = acc ++ ext ∧ ∀ a ∈ ext, GraphOK a := by
  unfold capped_append
  apply foldlM_extends GraphOK
  intro acc2 v hv
  by_cases hlen : maxVar ≤ acc2.length
  · exact ⟨acc2, by rw [if_pos hlen], Or.inl rfl⟩
  · obtain ⟨w, hw, hPw⟩ := hmk v hv
    exact ⟨acc2 ++ [w], by rw [if_neg hlen, hw]; rfl, Or.inr ⟨w, hPw, rfl⟩⟩

/-- `generate_variations` on a valid diagram succeeds, every produced diagram
is valid, and (when the cap is at least 1) the result is nonempty with the
input diagram first. -/
theorem generate_variations_spec (g : ZXGraph) (maxVar : ℕ) (rnd : ℕ → SpiderKind × ℤ)
    (hok : GraphOK g) :
    ∃ vs, generate_variations g maxVar rnd = some vs ∧
      (∀ a ∈ vs, GraphOK a) ∧ (1 ≤ maxVar → vs ≠ []) := by
  obtain ⟨v1, hv1, ext1, hext1, hP1⟩ := add_node_section_spec g maxVar rnd [g] hok
  obtain ⟨v2, hv2, ext2, hext2, hP2⟩ := capped_append_spec maxVar (flip_variation g)
    (g.nodes.take 3) v1 (fun v hv => flip_variation_spec g v hok (List.take_subset 3 g.nodes hv))
  obtain ⟨v3, hv3, ext3, hext3, hP3⟩ := capped_append_spec maxVar (phase_variation g)
    (g.nodes.take 2) v2 (fun v hv => phase_variation_spec g v hok (List.take_subset 2 g.nodes hv))
  have hv3mem : ∀ a ∈ v3, GraphOK a := by
    intro a ha
    rw [hext3] at ha
    rcases List.mem_append.mp ha with ha2 | ha2
    · rw [hext2] at ha2
      rcases List.mem_append.mp ha2 with ha3 | ha3
      · rw [hext1] at ha3
        rcases List.mem_append.mp ha3 with ha4 | ha4
        · have : a = g := by simpa using ha4
          subst this
          exact hok
        · exact hP1 a ha4
      · exact hP2 a ha3
    · exact hP3 a ha2
  refine ⟨v3.take maxVar, ?_, ?_, ?_⟩
  · rw [generate_variations, hv1]
    simp only [Option.some_bind]
    rw [hv2]
    simp only [Option.some_bind]
    rw [hv3]
    simp only [Option.map_some']
  · intro a ha
    exact hv3mem a (List.take_subset maxVar v3 ha)
  · intro hmax
    have hv3head : ∃ t, v3 = g :: t := by
      refine ⟨ext1 ++ ext2 ++ ext3, ?_⟩
      rw [hext3, hext2, hext1]
      simp
    obtain ⟨t, rfl⟩ := hv3head
    rw [List.take_cons (by omega)]
    simp

end SCCMU

namespace SCCMU

/-! ### Engine step: totality and invariant preservation -/

theorem argmaxAux_lt (xs : List ℝ) : ∀ (i best : ℕ) (bv : ℝ), best < i →
    argmaxAux xs i best bv < i + xs.length := by
  induction xs with
  | nil =>
      intro i best bv h
      unfold argmaxAux
      omega
  | cons x xs ih =>
      intro i best bv h
      unfold argmaxAux
      simp only [List.length_cons]
      by_cases hc : bv < x
      · rw [if_pos hc]
        have hx := ih (i + 1) i x (by omega)
        omega
      · rw [if_neg hc]
        have hx := ih (i + 1) best bv (by omega)
        omega

theorem argmaxIdx_lt (l : List ℝ) (h : l ≠ []) : argmaxIdx l < l.length := by
  cases l with
  | nil => exact absurd rfl h
  | cons x xs =>
      unfold argmaxIdx
      have := argmaxAux_lt xs 1 0 x (by omega)
      simp only [List.length_cons]
      omega

theorem compute_functional_derivative_length (Cm : ℕ → ℕ → ℝ) (rho : List ℝ) (beta : ℝ) :
    (compute_functional_derivative Cm rho beta).length = rho.length := by
  simp [compute_functional_derivative]

theorem engineRho0_length (st : EngineState) (ens : List ZXGraph) :
    (engineRho0 st ens).length = ens.length := by
  unfold engineRho0
  split_ifs with h
  · simp
  · push_neg at h
    exact h

theorem engineRho0_sum (st : EngineState) (ens : List ZXGraph)
    (hsum : st.rho.sum = 1) (hne : ens ≠ []) : (engineRho0 st ens).sum = 1 := by
  unfold engineRho0
  split_ifs with h
  · rw [List.sum_replicate, nsmul_eq_mul]
    have hn : (ens.length : ℝ) ≠ 0 := by
      have h0 : ens.length ≠ 0 := fun hc => hne (List.length_eq_zero.mp hc)
      exact_mod_cast h0
    field_simp
  · exact hsum

theorem engineRho3_length (st : EngineState) (ens : List ZXGraph) (dt : ℝ) :
    (engineRho3 st ens dt).length = ens.length := by
  unfold engineRho3 engineDeltaF
  rw [step_rho_length, compute_functional_derivative_length, engineRho0_length]
  simp

theorem engineRho3_invariant (st : EngineState) (ens : List ZXGraph) (dt : ℝ)
    (hsum : st.rho.sum = 1) (hne : ens ≠ []) :
    (engineRho3 st ens dt).sum = 1 ∧ ∀ x ∈ engineRho3 st ens dt, 0 ≤ x := by
  unfold engineRho3 engineDeltaF
  have hlen : (engineRho0 st ens).length =
      (compute_functional_derivative (compute_coherence_matrix ens) (engineRho0 st ens)
        BETA).length := (compute_functional_derivative_length _ _ _).symm
  have h := step_rho_invariant (engineRho0 st ens) _ dt hlen (engineRho0_sum st ens hsum hne)
  exact ⟨h.2.1, h.2.2⟩

theorem compute_free_energy_total (ds : List ZXGraph) (rho : List ℝ)
    (hvalid : ds.all validate = true) (hlen : ds.length = rho.length)
    (hsum : rho.sum = 1) : ∃ F, compute_free_energy ds rho BETA = some F := by
  have hlt : |rho.sum - 1| < 1 / 1000000 := by rw [hsum]; norm_num
  obtain ⟨L, hL⟩ : ∃ L, compute_coherence_functional ds rho = some L :=
    ⟨_, by rw [compute_coherence_functional, if_pos hlen, if_pos hlt, if_pos hvalid]⟩
  obtain ⟨S, hS⟩ : ∃ S, compute_entropy rho = some S :=
    ⟨_, by rw [compute_entropy, if_pos hlt]⟩
  refine ⟨L - S / BETA, ?_⟩
  rw [compute_free_energy, hL]
  simp only [Option.some_bind]
  rw [hS]
  simp only [Option.map_some']

theorem coherence_checked_some (d : ZXGraph) (h : validate d = true) :
    coherence_checked d d = some (coherence_between_diagrams d d) := by
  rw [coherence_checked, if_pos ⟨h, h⟩]

/-- Totality of `evolve_step` on invariant states with a positive ensemble-size
cap: the step succeeds, preserves the invariant, and the returned mode data
are safe. -/
theorem evolve_step_spec (s : EngineState) (hInv : StateInv s) (hk : 1 ≤ s.ensembleSize)
    (rnd : ℕ → SpiderKind × ℤ) (dt : ℝ) :
    ∃ s2 res, evolve_step rnd s dt = some (s2, res) ∧ StateInv s2 ∧
      s2.ensembleSize = s.ensembleSize ∧
      0 ≤ res.modeProbability ∧ res.modeProbability ≤ 1 ∧
      validate res.modeGraph = true := by
  obtain ⟨hmode, hsum, hnn, hlen⟩ := hInv
  obtain ⟨vs, hgen, hmem, hne'⟩ := generate_variations_spec s.modeGraph s.ensembleSize rnd hmode
  have hvs_ne : vs ≠ [] := hne' hk
  have hall : vs.all validate = true := List.all_eq_true.mpr (fun d hd => (hmem d hd).1)
  have hr3len : (engineRho3 s vs dt).length = vs.length := engineRho3_length s vs dt
  have hr3 := engineRho3_invariant s vs dt hsum hvs_ne
  have hr3ne : engineRho3 s vs dt ≠ [] := by
    intro hc
    rw [hc] at hr3
    simp at hr3
  have hidx : argmaxIdx (engineRho3 s vs dt) < (engineRho3 s vs dt).length :=
    argmaxIdx_lt _ hr3ne
  have hidx2 : argmaxIdx (engineRho3 s vs dt) < vs.length := by
    rw [← hr3len]; exact hidx
  obtain ⟨p, hget1⟩ : ∃ p, (engineRho3 s vs dt).get? (argmaxIdx (engineRho3 s vs dt)) = some p :=
    ⟨_, List.get?_eq_get hidx⟩
  obtain ⟨modeG, hget2⟩ : ∃ g0, vs.get? (argmaxIdx (engineRho3 s vs dt)) = some g0 :=
    ⟨_, List.get?_eq_get hidx2⟩
  have hpmem : p ∈ engineRho3 s vs dt := List.get?_mem hget1
  have hgmem : modeG ∈ vs := List.get?_mem hget2
  have hgok := hmem modeG hgmem
  obtain ⟨F, hF⟩ := compute_free_energy_total vs (engineRho3 s vs dt) hall hr3len.symm hr3.1
  have hcc := coherence_checked_some modeG hgok.1
  refine ⟨{ modeGraph := modeG, ensemble := vs, rho := engineRho3 s vs dt,
            ensembleSize := s.ensembleSize },
          { modeGraph := modeG, modeProbability := p, freeEnergy := F,
            modeCoherence := coherence_between_diagrams modeG modeG,
            numDiagrams := vs.length },
          ?_, ?_, rfl, ?_, ?_, hgok.1⟩
  · simp only [evolve_step, hgen, hall, if_true, hget1, hget2, hF, hcc]
  · exact ⟨hgok, hr3.1, hr3.2, by rw [hr3len]⟩
  · exact hr3.2 p hpmem
  · calc p ≤ (engineRho3 s vs dt).sum := List.single_le_sum hr3.2 p hpmem
      _ = 1 := hr3.1

/-- A successful `evolve_step` from an invariant state preserves the invariant
and the configured ensemble size. -/
theorem evolve_step_preserves (s s2 : EngineState) (res : StepResult)
    (rnd : ℕ → SpiderKind × ℤ) (dt : ℝ) (hInv : StateInv s)
    (hstep : evolve_step rnd s dt = some (s2, res)) :
    StateInv s2 ∧ s2.ensembleSize = s.ensembleSize := by
  obtain ⟨hmode, hsum, hnn, hlen⟩ := hInv
  rw [evolve_step] at hstep
  split at hstep
  next => exact absurd hstep (by simp)
  next ens hgen =>
    split at hstep
    · split at hstep
      next modeProb modeG hget1 hget2 =>
        split at hstep
        next F mc hF hmc =>
          obtain ⟨vs, hgenspec, hmem, _⟩ :=
            generate_variations_spec s.modeGraph s.ensembleSize rnd ⟨hmode.1, hmode.2⟩
          rw [hgenspec] at hgen
          have hvseq : vs = ens := Option.some.inj hgen
          subst hvseq
          have hne : vs ≠ [] := by
            intro hc
            subst hc
            simp at hget2
          have hr3 := engineRho3_invariant s vs dt hsum hne
          have h2 := Option.some.inj hstep
          rw [Prod.mk.injEq] at h2
          obtain ⟨hA, hB⟩ := h2
          subst hA
          refine ⟨⟨hmem modeG (List.get?_mem hget2), hr3.1, hr3.2, ?_⟩, rfl⟩
          exact engineRho3_length s vs dt
        next hcatch => exact absurd hstep (by simp)
      next hcatch => exact absurd hstep (by simp)
    · exact absurd hstep (by simp)

/-- Every state reachable from the freshly initialized engine satisfies the
invariant and keeps the configured ensemble size. -/
theorem reaches_inv (k : ℕ) (s : EngineState) (h : Reaches (engineInit k) s) :
    StateInv s ∧ s.ensembleSize = k := by
  induction h with
  | refl =>
      refine ⟨⟨⟨?_, ?_⟩, by simp [engineInit], ?_, rfl⟩, rfl⟩
      · show validate create_seed_graph = true
        decide
      · show labels_valid create_seed_graph = true
        decide
      · intro x hx
        have hx1 : x = 1 := by simpa [engineInit] using hx
        rw [hx1]
        norm_num
  | step s1 s2 res rnd dt h1 hdt hstep ih =>
      obtain ⟨hInv, hsize⟩ := ih
      obtain ⟨hInv2, hsize2⟩ := evolve_step_preserves s1 s2 res rnd dt hInv hstep
      exact ⟨hInv2, by rw [hsize2, hsize]⟩

/-- C1: for every state of `ZXEvolutionEngine` reachable from the seed by any
finite sequence of `evolve_step(dt)` calls with `dt > 0`, the distribution
`ensemble_rho` has the ensemble's length, every entry is non-negative, and the
entries sum to 1 within `1e-6` (in the exact-arithmetic model the sum is
exactly 1). -/
theorem c1_distribution_invariant (k : ℕ) (s : EngineState)
    (h : Reaches (engineInit k) s) :
    s.rho.length = s.ensemble.length ∧ (∀ x ∈ s.rho, 0 ≤ x) ∧
    |s.rho.sum - 1| ≤ 1 / 1000000 := by
  obtain ⟨⟨_, hsum, hnn, hlen⟩, _⟩ := reaches_inv k s h
  exact ⟨hlen, hnn, by rw [hsum]; norm_num⟩

/-- Witness for C1 at the freshly initialized engine. -/
theorem c1_witness :
    (engineInit 3).rho.length = (engineInit 3).ensemble.length ∧
    (∀ x ∈ (engineInit 3).rho, 0 ≤ x) ∧
    |(engineInit 3).rho.sum - 1| ≤ 1 / 1000000 :=
  c1_distribution_invariant 3 (engineInit 3) Reaches.refl

/-- C4: starting the engine from the seed (any ensemble size at least 1, in
particular 10), every `evolve_step` call from a reachable state completes
without raising, the returned `mode_probability` lies in `[0, 1]`, and the
returned mode diagram passes `validate()`. -/
theorem c4_step_never_raises (k : ℕ) (hk : 1 ≤ k) (s : EngineState)
    (h : Reaches (engineInit k) s) (rnd : ℕ → SpiderKind × ℤ) (dt : ℝ) :
    ∃ s2 res, evolve_step rnd s dt = some (s2, res) ∧
      0 ≤ res.modeProbability ∧ res.modeProbability ≤ 1 ∧
      validate res.modeGraph = true := by
  obtain ⟨hInv, hsize⟩ := reaches_inv k s h
  obtain ⟨s2, res, hstep, _, _, hp0, hp1, hval⟩ :=
    evolve_step_spec s hInv (by rw [hsize]; exact hk) rnd dt
  exact ⟨s2, res, hstep, hp0, hp1, hval⟩

/-- Witness for C4 with ensemble size 10 and `dt = 0.01`. -/
theorem c4_witness :
    1 ≤ 10 ∧ ∃ s2 res,
      evolve_step (fun _ => (SpiderKind.Z, 0)) (engineInit 10) (1 / 100) = some (s2, res) ∧
      0 ≤ res.modeProbability ∧ res.modeProbability ≤ 1 ∧
      validate res.modeGraph = true :=
  ⟨by norm_num, c4_step_never_raises 10 (by norm_num) (engineInit 10) Reaches.refl
    (fun _ => (SpiderKind.Z, 0)) (1 / 100)⟩

end SCCMU

namespace SCCMU

/-! ### Coherence kernel: symmetry -/

theorem node_sim_comm (D1 D2 : ZXGraph) : node_sim D1 D2 = node_sim D2 D1 := by
  unfold node_sim
  by_cases h1 : D1.nodes.length = 0 <;> by_cases h2 : D2.nodes.length = 0 <;>
    simp [h1, h2, min_comm, max_comm]

theorem edge_sim_comm (D1 D2 : ZXGraph) : edge_sim D1 D2 = edge_sim D2 D1 := by
  unfold edge_sim
  rw [abs_sub_comm, max_left_comm]

theorem type_sim_comm (D1 D2 : ZXGraph) : type_sim D1 D2 = type_sim D2 D1 := by
  unfold type_sim
  by_cases h1 : 0 < D1.nodes.length <;> by_cases h2 : 0 < D2.nodes.length <;>
    simp [h1, h2, abs_sub_comm]

theorem dotH_comm (p1 p2 : List ℝ) : dotH p1 p2 = dotH p2 p1 := by
  unfold dotH
  congr 1
  exact List.map_congr_left (fun j _ => mul_comm _ _)

theorem phase_overlap_comm (D1 D2 : ZXGraph) : phase_overlap D1 D2 = phase_overlap D2 D1 := by
  unfold phase_overlap
  by_cases h1 : D1.labels = [] <;> by_cases h2 : D2.labels = [] <;> simp [h1, h2]
  rw [dotH_comm, mul_comm (normH (phasesOf D1)) (normH (phasesOf D2))]
  exact if_congr and_comm rfl rfl

theorem sum_map_ite_mem (l l2 : List ℤ) (g : ℤ → ℝ) :
    (l.map (fun v => if v ∈ l2 then g v else 0)).sum =
    ((l.filter (fun v => decide (v ∈ l2))).map g).sum := by
  induction l with
  | nil => simp
  | cons v vs ih => by_cases hv : v ∈ l2 <;> simp [List.filter_cons, hv, ih]

theorem filter_mem_perm (l1 l2 : List ℤ) (h1 : l1.Nodup) (h2 : l2.Nodup) :
    (l1.filter (fun v => decide (v ∈ l2))).Perm (l2.filter (fun v => decide (v ∈ l1))) := by
  apply (List.perm_ext_iff_of_nodup (List.Nodup.filter _ h1) (List.Nodup.filter _ h2)).mpr
  intro a
  simp only [List.mem_filter, decide_eq_true_eq]
  tauto

theorem label_diff_comm (D1 D2 : ZXGraph) (h1 : D1.nodes.Nodup) (h2 : D2.nodes.Nodup) :
    label_diff D1 D2 = label_diff D2 D1 := by
  unfold label_diff
  by_cases hlen : D1.nodes.length = D2.nodes.length
  · rw [if_pos hlen, if_pos hlen.symm]
    rw [sum_map_ite_mem D1.nodes D2.nodes _, sum_map_ite_mem D2.nodes D1.nodes _]
    rw [List.Perm.sum_eq (List.Perm.map _ (filter_mem_perm D1.nodes D2.nodes h1 h2))]
    congr 1
    apply List.map_congr_left
    intro v _
    cases hA : dictGet D1.labels v <;> cases hB : dictGet D2.labels v <;>
      simp [ne_comm, abs_sub_comm]
  · rw [if_neg hlen, if_neg (fun hc => hlen hc.symm)]

theorem compute_structural_overlap_comm (D1 D2 : ZXGraph) :
    compute_structural_overlap D1 D2 = compute_structural_overlap D2 D1 := by
  unfold compute_structural_overlap
  rw [node_sim_comm, edge_sim_comm, type_sim_comm, phase_overlap_comm]

theorem compute_edit_distance_comm (D1 D2 : ZXGraph)
    (h1 : D1.nodes.Nodup) (h2 : D2.nodes.Nodup) :
    compute_edit_distance D1 D2 = compute_edit_distance D2 D1 := by
  unfold compute_edit_distance
  rw [abs_sub_comm, abs_sub_comm ((D1.edges.length : ℝ)) ((D2.edges.length : ℝ)),
    label_diff_comm D1 D2 h1 h2]

theorem coherence_comm (D1 D2 : ZXGraph) (h1 : D1.nodes.Nodup) (h2 : D2.nodes.Nodup) :
    coherence_between_diagrams D1 D2 = coherence_between_diagrams D2 D1 := by
  unfold coherence_between_diagrams
  rw [compute_structural_overlap_comm, compute_edit_distance_comm D1 D2 h1 h2]

theorem coherence_nonneg (D1 D2 : ZXGraph) : 0 ≤ coherence_between_diagrams D1 D2 := by
  unfold coherence_between_diagrams
  exact le_min (le_max_right _ 0) zero_le_one

theorem coherence_le_one (D1 D2 : ZXGraph) : coherence_between_diagrams D1 D2 ≤ 1 :=
  min_le_right _ 1

end SCCMU

namespace SCCMU

/-! ### Coherence kernel: self-coherence -/

theorem BINW_pos : 0 < BINW := by
  unfold BINW
  positivity

theorem exists_bin (p : ℝ) (h0 : 0 ≤ p) (h2 : p < 2 * Real.pi) :
    ∃ j : ℕ, j < 16 ∧ ((j : ℝ) * BINW ≤ p ∧
      (if j = 15 then p ≤ 2 * Real.pi else p < ((j : ℝ) + 1) * BINW)) := by
  have hw := BINW_pos
  have hd0 : 0 ≤ p / BINW := by positivity
  refine ⟨⌊p / BINW⌋₊, ?_, ?_, ?_⟩
  · apply (Nat.floor_lt hd0).mpr
    rw [div_lt_iff hw]
    calc p < 2 * Real.pi := h2
      _ = 16 * BINW := by unfold BINW; ring
  · calc (⌊p / BINW⌋₊ : ℝ) * BINW ≤ (p / BINW) * BINW :=
        mul_le_mul_of_nonneg_right (Nat.floor_le hd0) (le_of_lt hw)
      _ = p := by field_simp
  · by_cases hj15 : ⌊p / BINW⌋₊ = 15
    · rw [if_pos hj15]
      exact le_of_lt h2
    · rw [if_neg hj15]
      calc p = (p / BINW) * BINW := by field_simp
        _ < ((⌊p / BINW⌋₊ : ℝ) + 1) * BINW :=
            mul_lt_mul_of_pos_right (Nat.lt_floor_add_one (p / BINW)) hw

theorem binCount_pos_of_mem (phases : List ℝ) (p : ℝ) (hp : p ∈ phases)
    (h0 : 0 ≤ p) (h2 : p < 2 * Real.pi) :
    ∃ j, j < 16 ∧ 0 < binCount phases j := by
  obtain ⟨j, hj16, hcond⟩ := exists_bin p h0 h2
  refine ⟨j, hj16, ?_⟩
  unfold binCount
  apply List.countP_pos.mpr
  exact ⟨p, hp, if_pos hcond⟩

theorem le_totalInRange (phases : List ℝ) (j : ℕ) (hj : j < 16) :
    binCount phases j ≤ totalInRange phases := by
  unfold totalInRange
  apply List.single_le_sum (fun x _ => Nat.zero_le x)
  exact List.mem_map.mpr ⟨j, List.mem_range.mpr hj, rfl⟩

theorem histDensity_pos (phases : List ℝ) (j : ℕ) (hj : j < 16)
    (hc : 0 < binCount phases j) : 0 < histDensity phases j := by
  unfold histDensity
  apply div_pos
  · exact_mod_cast hc
  · apply mul_pos _ BINW_pos
    have hle := le_totalInRange phases j hj
    have h0 : 0 < totalInRange phases := lt_of_lt_of_le hc hle
    exact_mod_cast h0

theorem dotH_self (p : List ℝ) :
    dotH p p = ((List.range 16).map (fun j => histDensity p j ^ 2)).sum := by
  unfold dotH
  congr 1
  exact List.map_congr_left (fun j _ => by rw [sq])

theorem phase_overlap_self (d : ZXGraph) (hlab : labels_valid d = true)
    (hcan : canonical_phases d = true) : phase_overlap d d = 1 := by
  by_cases hne : d.labels = []
  · unfold phase_overlap
    simp [hne]
  · have hrange : ∀ p ∈ phasesOf d, 0 ≤ p ∧ p < 2 * Real.pi := by
      intro p hp
      obtain ⟨l, hl, rfl⟩ := List.mem_map.mp hp
      obtain ⟨q, hq, rfl⟩ := List.mem_map.mp hl
      have hpost := (labels_valid_iff d).mp hlab q hq
      have hden : (0 : ℤ) < q.2.phase_denom :=
        pow2_pos_of_is_power_of_2 ((label_post_init_iff _).mp hpost)
      have hcan2 : 0 ≤ q.2.phase_numer ∧ q.2.phase_numer < 2 * q.2.phase_denom := by
        have hall := List.all_eq_true.mp hcan q hq
        simpa using hall
      have hdR : (0 : ℝ) < (q.2.phase_denom : ℝ) := by exact_mod_cast hden
      have hnR : (0 : ℝ) ≤ (q.2.phase_numer : ℝ) := by exact_mod_cast hcan2.1
      constructor
      · unfold phase_radians
        exact div_nonneg (mul_nonneg (le_of_lt Real.pi_pos) hnR) (le_of_lt hdR)
      · unfold phase_radians
        rw [div_lt_iff hdR]
        have hlt : (q.2.phase_numer : ℝ) < 2 * (q.2.phase_denom : ℝ) := by
          exact_mod_cast hcan2.2
        nlinarith [Real.pi_pos]
    have hpne : phasesOf d ≠ [] := by
      unfold phasesOf labelValues
      simp [hne]
    obtain ⟨p0, hp0⟩ := List.exists_mem_of_ne_nil _ hpne
    obtain ⟨j, hj16, hcpos⟩ :=
      binCount_pos_of_mem _ p0 hp0 (hrange p0 hp0).1 (hrange p0 hp0).2
    have hhj := histDensity_pos (phasesOf d) j hj16 hcpos
    have hSnonneg : ∀ x ∈ (List.range 16).map (fun i => histDensity (phasesOf d) i ^ 2), 0 ≤ x := by
      intro x hx
      obtain ⟨i, _, rfl⟩ := List.mem_map.mp hx
      exact sq_nonneg _
    have hSpos : 0 < ((List.range 16).map (fun i => histDensity (phasesOf d) i ^ 2)).sum := by
      have hmem : histDensity (phasesOf d) j ^ 2 ∈
          (List.range 16).map (fun i => histDensity (phasesOf d) i ^ 2) :=
        List.mem_map.mpr ⟨j, List.mem_range.mpr hj16, rfl⟩
      exact lt_of_lt_of_le (pow_pos hhj 2) (List.single_le_sum hSnonneg _ hmem)
    have hnorm : 0 < normH (phasesOf d) := by
      unfold normH
      exact Real.sqrt_pos.mpr hSpos
    unfold phase_overlap
    rw [if_pos ⟨hne, hne⟩, if_pos ⟨hnorm, hnorm⟩, dotH_self]
    unfold normH
    rw [Real.mul_self_sqrt (le_of_lt hSpos)]
    exact div_self (ne_of_gt hSpos)

theorem node_sim_self (d : ZXGraph) : node_sim d d = 1 := by
  unfold node_sim
  by_cases h : d.nodes.length = 0
  · simp [h]
  · rw [if_neg (by tauto), if_neg (by tauto), min_self, max_self]
    have hc : (d.nodes.length : ℝ) ≠ 0 := by exact_mod_cast h
    exact div_self hc

theorem edge_sim_self (d : ZXGraph) : edge_sim d d = 1 := by
  unfold edge_sim
  simp

theorem type_sim_self (d : ZXGraph) : type_sim d d = 1 := by
  unfold type_sim
  by_cases h : 0 < d.nodes.length ∧ 0 < d.nodes.length
  · rw [if_pos h]
    simp
  · rw [if_neg h]

theorem label_diff_self (d : ZXGraph) : label_diff d d = 0 := by
  unfold label_diff
  rw [if_pos rfl]
  apply List.sum_eq_zero
  intro x hx
  obtain ⟨v, _, rfl⟩ := List.mem_map.mp hx
  by_cases hmem : v ∈ d.nodes
  · rw [if_pos hmem]
    cases h : dictGet d.labels v with
    | none => rfl
    | some l =>
        have h1 : ¬ (l.kind ≠ l.kind) := by simp
        simp only [h]
        rw [if_neg h1, sub_self, abs_zero, if_neg (by norm_num : ¬ ((0.1 : ℝ) < 0))]
        norm_num
  · rw [if_neg hmem]

theorem compute_edit_distance_self (d : ZXGraph) : compute_edit_distance d d = 0 := by
  unfold compute_edit_distance
  rw [label_diff_self]
  simp

theorem compute_structural_overlap_self (d : ZXGraph) (hlab : labels_valid d = true)
    (hcan : canonical_phases d = true) : compute_structural_overlap d d = 1 := by
  unfold compute_structural_overlap
  rw [node_sim_self, edge_sim_self, type_sim_self, phase_overlap_self d hlab hcan]
  norm_num

theorem coherence_self (d : ZXGraph) (hlab : labels_valid d = true)
    (hcan : canonical_phases d = true) : coherence_between_diagrams d d = 1 := by
  unfold coherence_between_diagrams
  rw [compute_structural_overlap_self d hlab hcan, compute_edit_distance_self]
  norm_num

end SCCMU

namespace SCCMU

/-! ### Claim C2: coherence matrix validity -/

theorem binCount_zero_of_neg (phases : List ℝ) (hneg : ∀ p ∈ phases, p < 0) (j : ℕ) :
    binCount phases j = 0 := by
  unfold binCount
  rw [List.countP_eq_zero]
  intro a ha
  have hb : (0 : ℝ) ≤ (j : ℝ) * BINW := mul_nonneg (Nat.cast_nonneg j) (le_of_lt BINW_pos)
  have hlt := hneg a ha
  have hnle : ¬ ((j : ℝ) * BINW ≤ a) := by linarith
  simp [hnle]

theorem normH_zero_of_neg (phases : List ℝ) (hneg : ∀ p ∈ phases, p < 0) :
    normH phases = 0 := by
  unfold normH
  have hz : ∀ x ∈ (List.range 16).map (fun j => histDensity phases j ^ 2), x = 0 := by
    intro x hx
    obtain ⟨i, _, rfl⟩ := List.mem_map.mp hx
    unfold histDensity
    rw [binCount_zero_of_neg phases hneg i]
    simp
  rw [List.sum_eq_zero hz, Real.sqrt_zero]

theorem phasesOf_badPhaseGraph_neg : ∀ p ∈ phasesOf badPhaseGraph, p < 0 := by
  intro p hp
  have hval : phasesOf badPhaseGraph =
      [phase_radians ⟨SpiderKind.Z, -2, 1, 0⟩] := rfl
  rw [hval] at hp
  have hp2 : p = phase_radians ⟨SpiderKind.Z, -2, 1, 0⟩ := by simpa using hp
  rw [hp2]
  unfold phase_radians
  push_cast
  nlinarith [Real.pi_pos]

theorem coherence_badPhase : coherence_between_diagrams badPhaseGraph badPhaseGraph = 0 := by
  have hpo : phase_overlap badPhaseGraph badPhaseGraph = 0 := by
    unfold phase_overlap
    rw [if_pos ⟨by simp [badPhaseGraph], by simp [badPhaseGraph]⟩]
    rw [normH_zero_of_neg _ phasesOf_badPhaseGraph_neg]
    simp
  unfold coherence_between_diagrams compute_structural_overlap
  rw [hpo, mul_zero, Real.zero_rpow (by norm_num), zero_mul]
  simp

/-- C2 counterexample: `badPhaseGraph` passes `validate` (and its label passes
the constructor checks), yet its phase `-2*pi` falls outside the histogram
range, so every histogram bin is empty, the cosine-similarity branch returns
0, and the diagonal entry of the coherence matrix is 0 instead of 1. -/
theorem c2_counterexample :
    validateDiagram badPhaseGraph = true ∧
    ¬ (|compute_coherence_matrix [badPhaseGraph] 0 0 - 1| ≤ 1 / 1000000) := by
  refine ⟨by decide, ?_⟩
  have h : compute_coherence_matrix [badPhaseGraph] 0 0 =
      coherence_between_diagrams badPhaseGraph badPhaseGraph := rfl
  rw [h, coherence_badPhase]
  norm_num

/-- C2 amended: for every finite list of valid diagrams whose node lists are
duplicate-free and whose label phases lie on the canonical grid `[0, 2*pi)`
(`0 ≤ numer < 2*denom`), the coherence matrix is symmetric, has unit diagonal
within `1e-6`, and all entries lie in `[0, 1]`. -/
theorem c2_matrix_valid_amended (ds : List ZXGraph)
    (h : ∀ d ∈ ds, validateDiagram d = true ∧ d.nodes.Nodup ∧ canonical_phases d = true) :
    (∀ i j, i < ds.length → j < ds.length →
      compute_coherence_matrix ds i j = compute_coherence_matrix ds j i) ∧
    (∀ i, i < ds.length → |compute_coherence_matrix ds i i - 1| ≤ 1 / 1000000) ∧
    (∀ i j, 0 ≤ compute_coherence_matrix ds i j ∧ compute_coherence_matrix ds i j ≤ 1) := by
  refine ⟨?_, ?_, ?_⟩
  · intro i j hi hj
    unfold compute_coherence_matrix
    have hdi : ds.getD i emptyGraph ∈ ds := by
      rw [List.getD_eq_get ds emptyGraph hi]
      exact List.get_mem ds i hi
    have hdj : ds.getD j emptyGraph ∈ ds := by
      rw [List.getD_eq_get ds emptyGraph hj]
      exact List.get_mem ds j hj
    exact coherence_comm _ _ (h _ hdi).2.1 (h _ hdj).2.1
  · intro i hi
    unfold compute_coherence_matrix
    have hdi : ds.getD i emptyGraph ∈ ds := by
      rw [List.getD_eq_get ds emptyGraph hi]
      exact List.get_mem ds i hi
    obtain ⟨hvd, _, hcan⟩ := h _ hdi
    have hlab : labels_valid (ds.getD i emptyGraph) = true := by
      have hvd2 := hvd
      unfold validateDiagram at hvd2
      exact (Bool.and_eq_true _ _ |>.mp hvd2).2
    rw [coherence_self _ hlab hcan]
    norm_num
  · intro i j
    exact ⟨coherence_nonneg _ _, coherence_le_one _ _⟩

/-- Witness for C2 on the singleton list holding the seed diagram. -/
theorem c2_witness :
    (∀ d ∈ [create_seed_graph], validateDiagram d = true ∧ d.nodes.Nodup ∧
        canonical_phases d = true) ∧
    ((∀ i j, i < [create_seed_graph].length → j < [create_seed_graph].length →
        compute_coherence_matrix [create_seed_graph] i j =
        compute_coherence_matrix [create_seed_graph] j i) ∧
     (∀ i, i < [create_seed_graph].length →
        |compute_coherence_matrix [create_seed_graph] i i - 1| ≤ 1 / 1000000) ∧
     (∀ i j, 0 ≤ compute_coherence_matrix [create_seed_graph] i j ∧
        compute_coherence_matrix [create_seed_graph] i j ≤ 1)) :=
  ⟨by decide, c2_matrix_valid_amended [create_seed_graph] (by decide)⟩

end SCCMU

namespace SCCMU

/-! ### Claim C3: structural similarity comparison -/

theorem coherence_zero_of_edge_mismatch (D1 D2 : ZXGraph) (h1 : D1.edges.length = 0)
    (h2 : 1 ≤ D2.edges.length) : coherence_between_diagrams D1 D2 = 0 := by
  have he2 : (0 : ℝ) < (D2.edges.length : ℝ) := by
    have h0 : 0 < D2.edges.length := h2
    exact_mod_cast h0
  have hes : edge_sim D1 D2 = 0 := by
    unfold edge_sim
    rw [h1]
    have hmax : (0 : ℕ) ⊔ (D2.edges.length ⊔ 1) = D2.edges.length := by omega
    rw [hmax, Nat.cast_zero, zero_sub, abs_neg, abs_of_nonneg (Nat.cast_nonneg _),
      div_self (ne_of_gt he2), sub_self]
  unfold coherence_between_diagrams compute_structural_overlap
  rw [hes, mul_zero, zero_mul, zero_mul, Real.zero_rpow (by norm_num), zero_mul]
  simp

theorem binCount_zero_phases (phases : List ℝ) (hz : ∀ p ∈ phases, p = 0) (j : ℕ) :
    binCount phases j = if j = 0 then phases.length else 0 := by
  unfold binCount
  by_cases hj : j = 0
  · rw [if_pos hj, hj]
    apply List.countP_eq_length.mpr
    intro a ha
    rw [hz a ha]
    have hcond : ((0 : ℕ) : ℝ) * BINW ≤ 0 ∧
        (if (0 : ℕ) = 15 then (0 : ℝ) ≤ 2 * Real.pi
         else (0 : ℝ) < (((0 : ℕ) : ℝ) + 1) * BINW) := by
      refine ⟨by simp, ?_⟩
      rw [if_neg (by norm_num)]
      simpa using BINW_pos
    exact if_pos hcond
  · rw [if_neg hj]
    apply List.countP_eq_zero.mpr
    intro a ha
    rw [hz a ha]
    have hjpos : (0 : ℝ) < (j : ℝ) * BINW := by
      have hj0 : 0 < j := Nat.pos_of_ne_zero hj
      have hjR : (0 : ℝ) < (j : ℝ) := by exact_mod_cast hj0
      exact mul_pos hjR BINW_pos
    intro hC
    have hC2 : (j : ℝ) * BINW ≤ 0 ∧
        (if j = 15 then (0 : ℝ) ≤ 2 * Real.pi else (0 : ℝ) < ((j : ℝ) + 1) * BINW) := by
      by_contra hneg
      rw [if_neg hneg] at hC
      exact Bool.false_ne_true hC
    linarith [hC2.1]

theorem totalInRange_zero_phases (phases : List ℝ) (hz : ∀ p ∈ phases, p = 0) :
    totalInRange phases = phases.length := by
  unfold totalInRange
  rw [List.map_congr_left (fun j _ => binCount_zero_phases phases hz j)]
  simp [List.range_succ]

theorem histDensity_zero_phases (phases : List ℝ) (hz : ∀ p ∈ phases, p = 0)
    (hne : phases ≠ []) (j : ℕ) :
    histDensity phases j = if j = 0 then 1 / BINW else 0 := by
  unfold histDensity
  rw [binCount_zero_phases phases hz j, totalInRange_zero_phases phases hz]
  have hlen : (0 : ℝ) < (phases.length : ℝ) := by
    have h0 : 0 < phases.length := List.length_pos.mpr hne
    exact_mod_cast h0
  by_cases hj : j = 0
  · rw [if_pos hj, if_pos hj]
    push_cast
    rw [div_mul_eq_div_div]
    rw [div_self (ne_of_gt hlen)]
  · rw [if_neg hj, if_neg hj]
    simp

theorem phase_overlap_zero_phases (D1 D2 : ZXGraph)
    (h1 : D1.labels ≠ []) (h2 : D2.labels ≠ [])
    (hz1 : ∀ p ∈ phasesOf D1, p = 0) (hz2 : ∀ p ∈ phasesOf D2, p = 0) :
    phase_overlap D1 D2 = 1 := by
  have hpne1 : phasesOf D1 ≠ [] := by
    unfold phasesOf labelValues
    simp [h1]
  have hpne2 : phasesOf D2 ≠ [] := by
    unfold phasesOf labelValues
    simp [h2]
  have hh1 := histDensity_zero_phases (phasesOf D1) hz1 hpne1
  have hh2 := histDensity_zero_phases (phasesOf D2) hz2 hpne2
  have hwpos : (0 : ℝ) < 1 / BINW := div_pos one_pos BINW_pos
  have hsq : ∀ ph : List ℝ, (∀ j : ℕ, histDensity ph j = if j = 0 then 1 / BINW else 0) →
      ((List.range 16).map (fun j => histDensity ph j ^ 2)).sum = (1 / BINW) ^ 2 := by
    intro ph hph
    rw [List.map_congr_left (fun j _ => by rw [hph j])]
    simp [List.range_succ]
  have hnorm1 : normH (phasesOf D1) = 1 / BINW := by
    unfold normH
    rw [hsq _ hh1, Real.sqrt_sq (le_of_lt hwpos)]
  have hnorm2 : normH (phasesOf D2) = 1 / BINW := by
    unfold normH
    rw [hsq _ hh2, Real.sqrt_sq (le_of_lt hwpos)]
  have hdot : dotH (phasesOf D1) (phasesOf D2) = (1 / BINW) ^ 2 := by
    unfold dotH
    rw [List.map_congr_left (fun j _ => by rw [hh1 j, hh2 j])]
    simp [List.range_succ]
    ring
  unfold phase_overlap
  rw [if_pos ⟨h1, h2⟩,
    if_pos ⟨by rw [hnorm1]; exact hwpos, by rw [hnorm2]; exact hwpos⟩,
    hdot, hnorm1, hnorm2, sq]
  exact div_self (ne_of_gt (mul_pos hwpos hwpos))

theorem phasesOf_seed_zero : ∀ p ∈ phasesOf create_seed_graph, p = 0 := by
  intro p hp
  have hval : phasesOf create_seed_graph = [phase_radians ⟨SpiderKind.Z, 0, 1, 0⟩] := rfl
  rw [hval] at hp
  have hp2 : p = phase_radians ⟨SpiderKind.Z, 0, 1, 0⟩ := by simpa using hp
  rw [hp2]
  unfold phase_radians
  push_cast
  ring

theorem phasesOf_tenIsolated_zero : ∀ p ∈ phasesOf tenIsolated, p = 0 := by
  intro p hp
  obtain ⟨l, hl, rfl⟩ := List.mem_map.mp hp
  obtain ⟨q, hq, rfl⟩ := List.mem_map.mp hl
  obtain ⟨i, _, rfl⟩ := List.mem_map.mp hq
  unfold phase_radians
  push_cast
  ring

theorem coherence_seed_tenIsolated_pos :
    0 < coherence_between_diagrams create_seed_graph tenIsolated := by
  have hl1 : create_seed_graph.nodes.length = 1 := rfl
  have hl2 : tenIsolated.nodes.length = 10 := rfl
  have hns : 0 < node_sim create_seed_graph tenIsolated := by
    unfold node_sim
    rw [hl1, hl2]
    norm_num
  have hes : 0 < edge_sim create_seed_graph tenIsolated := by
    unfold edge_sim
    norm_num [show create_seed_graph.edges.length = 0 from rfl,
      show tenIsolated.edges.length = 0 from rfl]
  have hts : 0 < type_sim create_seed_graph tenIsolated := by
    unfold type_sim
    rw [hl1, hl2, if_pos (by norm_num)]
    norm_num [show zCount create_seed_graph = 1 from rfl, show zCount tenIsolated = 10 from rfl]
  have hpo : phase_overlap create_seed_graph tenIsolated = 1 :=
    phase_overlap_zero_phases _ _ (by decide) (by decide)
      phasesOf_seed_zero phasesOf_tenIsolated_zero
  have hov : 0 < compute_structural_overlap create_seed_graph tenIsolated := by
    unfold compute_structural_overlap
    rw [hpo, mul_one]
    exact Real.rpow_pos_of_pos (mul_pos (mul_pos hns hes) hts) _
  unfold coherence_between_diagrams
  have hprod : 0 < compute_structural_overlap create_seed_graph tenIsolated *
      Real.exp (-(compute_edit_distance create_seed_graph tenIsolated) / PHI) :=
    mul_pos hov (Real.exp_pos _)
  rw [max_eq_left (le_of_lt hprod)]
  exact lt_min hprod one_pos

/-- C3 counterexample: for `D1` the seed, `D2` the canonical 2-node extension
of the seed, and `D3` the valid 10-node edgeless diagram, the code gives
`coherence(D1, D2) = 0` (the edge-count similarity factor vanishes and the
geometric mean collapses to 0) while `coherence(D1, D3) > 0`, so the claimed
strict inequality fails. -/
theorem c3_counterexample :
    validateDiagram tenIsolated = true ∧ tenIsolated.nodes.length = 10 ∧
    validateDiagram (seed_extension SpiderKind.Z 0 1) = true ∧
    ¬ (coherence_between_diagrams create_seed_graph tenIsolated <
       coherence_between_diagrams create_seed_graph (seed_extension SpiderKind.Z 0 1)) := by
  refine ⟨by decide, rfl, by decide, ?_⟩
  have h2 : coherence_between_diagrams create_seed_graph (seed_extension SpiderKind.Z 0 1) = 0 :=
    coherence_zero_of_edge_mismatch _ _ rfl (Nat.le_refl 1)
  rw [h2]
  exact not_lt.mpr (le_of_lt coherence_seed_tenIsolated_pos)

/-- C3 amended: any 2-node extension of the seed has one edge while the seed
has none, so `coherence(D1, D2) = 0`; for every valid 10-node diagram `D3`
with at least one edge the same collapse gives `coherence(D1, D3) = 0`, hence
`coherence(D1, D2) ≥ coherence(D1, D3)` (with equality, not strict
inequality). -/
theorem c3_coherence_amended (k : SpiderKind) (pn pd : ℤ)
    (hpd : is_power_of_2 pd = true) (D3 : ZXGraph) (h3 : validateDiagram D3 = true)
    (h10 : D3.nodes.length = 10) (he : D3.edges ≠ []) :
    coherence_between_diagrams create_seed_graph (seed_extension k pn pd) ≥
    coherence_between_diagrams create_seed_graph D3 := by
  have hD3 : coherence_between_diagrams create_seed_graph D3 = 0 :=
    coherence_zero_of_edge_mismatch _ _ rfl (List.length_pos.mpr he)
  have hD2 : coherence_between_diagrams create_seed_graph (seed_extension k pn pd) = 0 :=
    coherence_zero_of_edge_mismatch _ _ rfl (Nat.le_refl 1)
  rw [hD2, hD3]

/-- Witness for C3 at the 10-node path diagram. -/
theorem c3_witness :
    is_power_of_2 (2 : ℤ) = true ∧ validateDiagram tenPath = true ∧
    tenPath.nodes.length = 10 ∧ tenPath.edges ≠ [] ∧
    coherence_between_diagrams create_seed_graph (seed_extension SpiderKind.Z 0 2) ≥
    coherence_between_diagrams create_seed_graph tenPath :=
  ⟨by decide, by decide, by decide, by decide,
    c3_coherence_amended SpiderKind.Z 0 2 (by decide) tenPath (by decide) (by decide)
      (by decide)⟩

end SCCMU
